import Mathlib

/-!
Verification development for two cores of a source-control server:

* CORE A: the incremental ssh wire-protocol request parser
  (src/hgproto/src/sshproto/request.rs).  The nom 3.x parsers are embedded
  shallowly: byte strings are `List Nat` (each element an octet), and every
  parser returns a `PResult`, mirroring nom's
  `IResult := Done(rest, value) | Incomplete | Error`.  Instead of carrying
  the rest slice, `done` carries the number of consumed bytes (the rest is
  always a suffix of the input in this code, so the two presentations are
  equivalent); `Needed` payloads of `Incomplete` and error kinds of `Error`
  are elided because the driver never inspects them.

* CORE B: the cross-repo submodule-expansion validator
  (src/eden/mononoke/commit_rewriting/cross_repo_sync/src/git_submodules/validation.rs),
  embedded over an explicit environment of content-addressed stores.
-/

set_option maxHeartbeats 4000000
set_option maxRecDepth 10000

deriving instance DecidableEq for Except

namespace Ssh

/-- Embedding of nom's `IResult`: `done n v` means `Done(&input[n..], v)`. -/
inductive PResult (α : Type) : Type where
  | done (n : Nat) (v : α)
  | incomplete
  | error
  deriving DecidableEq, Repr

/-- A byte-level parser over octet lists. -/
def ByteParser (α : Type) : Type := List Nat → PResult α

/-- Sequencing, as in nom's `do_parse!`: run `p`, then run `q` on the rest,
accumulating the consumed count. `Incomplete`/`Error` propagate. -/
def pThen {α β : Type} (p : ByteParser α) (q : α → ByteParser β) : ByteParser β :=
  fun inp =>
    match p inp with
    | .done n v =>
      match q v (inp.drop n) with
      | .done m w => .done (n + m) w
      | .incomplete => .incomplete
      | .error => .error
    | .incomplete => .incomplete
    | .error => .error

/-- nom's `map!`. -/
def pMap {α β : Type} (p : ByteParser α) (f : α → β) : ByteParser β :=
  fun inp =>
    match p inp with
    | .done n v => .done n (f v)
    | .incomplete => .incomplete
    | .error => .error

/-- nom's `map_res!`: a failing conversion turns `Done` into `Error`. -/
def pMapRes {α β : Type} (p : ByteParser α) (f : α → Option β) : ByteParser β :=
  fun inp =>
    match p inp with
    | .done n v =>
      match f v with
      | some w => .done n w
      | none => .error
    | .incomplete => .incomplete
    | .error => .error

/-- nom 3.x `alt!` over two branches: `Done`/`Incomplete` short-circuit,
`Error` falls through to the next branch. -/
def pAlt {α : Type} (p q : ByteParser α) : ByteParser α :=
  fun inp =>
    match p inp with
    | .error => q inp
    | r => r

/-- nom's `complete!`: converts `Incomplete` into `Error`. -/
def pComplete {α : Type} (p : ByteParser α) : ByteParser α :=
  fun inp =>
    match p inp with
    | .incomplete => .error
    | r => r

/-- nom's `tag!`: literal byte string.  A strict prefix of the tag at the end
of input is `Incomplete`; a mismatch is `Error`. -/
def pTag (t : List Nat) : ByteParser (List Nat) :=
  fun inp =>
    if t.isPrefixOf inp then .done t.length t
    else if inp.isPrefixOf t then .incomplete
    else .error

/-- nom's `take!`: exactly `n` bytes. -/
def pTake (n : Nat) : ByteParser (List Nat) :=
  fun inp => if n ≤ inp.length then .done n (inp.take n) else .incomplete

/-- nom 3.x `take_while!`: greedy zero-or-more; end of input terminates the run. -/
def pTakeWhile (f : Nat → Bool) : ByteParser (List Nat) :=
  fun inp => .done (inp.takeWhile f).length (inp.takeWhile f)

/-- nom 3.x `take_while1!` (and `take_till1!` with a negated predicate):
greedy one-or-more; an empty match (including empty input) is `Error`. -/
def pTakeWhile1 (f : Nat → Bool) : ByteParser (List Nat) :=
  fun inp =>
    if (inp.takeWhile f).length = 0 then .error
    else .done (inp.takeWhile f).length (inp.takeWhile f)

/-- Index of the first occurrence of `sub` in the input, if any. -/
def findSub (sub : List Nat) : List Nat → Option Nat
  | [] => if sub.isPrefixOf [] then some 0 else none
  | b :: rest =>
    if sub.isPrefixOf (b :: rest) then some 0
    else (findSub sub rest).map (· + 1)

/-- nom's `take_until_and_consume1!`: bytes up to the first occurrence of
`sub` (at least one), consuming `sub` as well; `Incomplete` if absent. -/
def pTakeUntilConsume1 (sub : List Nat) : ByteParser (List Nat) :=
  fun inp =>
    match findSub sub inp with
    | none => .incomplete
    | some 0 => .error
    | some k => .done (k + sub.length) (inp.take k)

/-! ### Byte classes -/

/-- ASCII decimal digit (nom's `is_digit`). -/
def isDigitB (b : Nat) : Bool := Nat.ble 48 b && Nat.ble b 57

/-- ASCII letter or underscore: the first byte of an alphanumeric identifier. -/
def isAlphaUnd (b : Nat) : Bool :=
  (Nat.ble 97 b && Nat.ble b 122) || (Nat.ble 65 b && Nat.ble b 90) || Nat.beq b 95

/-- Letter, digit or underscore: later bytes of an alphanumeric identifier. -/
def isAlnumUnd (b : Nat) : Bool := isAlphaUnd b || isDigitB b

/-- nom's `is_alphanumeric`: ASCII letter or digit (no underscore). -/
def isAlnumB (b : Nat) : Bool :=
  (Nat.ble 97 b && Nat.ble b 122) || (Nat.ble 65 b && Nat.ble b 90) || isDigitB b

/-- The `ident` character class `[a-zA-Z0-9_%-]`. -/
def isIdentB (b : Nat) : Bool := isAlnumUnd b || Nat.beq b 45 || Nat.beq b 37

/-- Lowercase hexadecimal digit. -/
def isLowerHexB (b : Nat) : Bool :=
  isDigitB b || (Nat.ble 97 b && Nat.ble b 102)

/-- Byte that is not a comma (`notcomma` in the source). -/
def notComma (b : Nat) : Bool := !(Nat.beq b 44)

/-- Byte that is not a semicolon (`notsemi` in the source). -/
def notSemi (b : Nat) : Bool := !(Nat.beq b 59)

/-! ### Primitive parsers from the source -/

/-- Length of the digit run of `digit`: `none` when the run reaches the end
of the input (more digits may follow), `some k` when byte `k` is the first
non-digit. -/
def digitLen (f : Nat → Bool) : List Nat → Option Nat
  | [] => none
  | b :: rest => if f b then (digitLen f rest).map (· + 1) else some 0

/-- The source's `digit` helper: a greedy run of bytes satisfying `f`.
An empty run at the start of a nonempty input is `Error`; reaching the end
of input is `Incomplete` (a later digit may follow). -/
def digit (f : Nat → Bool) : ByteParser (List Nat) :=
  fun inp =>
    match digitLen f inp with
    | none => .incomplete
    | some 0 => .error
    | some k => .done k (inp.take k)

/-- Numeric value of an ASCII digit string. -/
def natOfDigits (ds : List Nat) : Nat :=
  ds.foldl (fun a d => a * 10 + (d - 48)) 0

/-- Bound of Rust's `usize` (64-bit); `usize::from_str` fails above it. -/
def usizeBound : Nat := 18446744073709551616

/-- The source's `integer`: digit run converted via `usize::from_str`
(which fails on overflow). -/
def integer : ByteParser Nat :=
  pMapRes (digit isDigitB)
    (fun ds => if natOfDigits ds < usizeBound then some (natOfDigits ds) else none)

/-- The source's `ident_alphanum`: `[a-zA-Z_][a-zA-Z0-9_]*`, `Incomplete`
when the identifier runs to the end of the input. -/
def identAlphanum : ByteParser (List Nat) :=
  fun inp =>
    match inp with
    | [] => .incomplete
    | b :: rest =>
      if isAlphaUnd b then
        match digitLen isAlnumUnd rest with
        | none => .incomplete
        | some k => .done (k + 1) (inp.take (k + 1))
      else .error

/-- The source's `ident`: `take_till1!` over the class `[a-zA-Z0-9_%-]`. -/
def ident : ByteParser (List Nat) := pTakeWhile1 isIdentB

/-- The source's `ident_complete` wrapper: `Incomplete` means the identifier
is the entire input. -/
def identComplete (p : ByteParser (List Nat)) : ByteParser (List Nat) :=
  fun inp =>
    match p inp with
    | .incomplete => .done inp.length inp
    | r => r

/-- Bound of Rust's `u32`. -/
def u32Bound : Nat := 4294967296

/-- The source's `boolean`: `take_while1!(is_digit)` parsed as `u32`, then
compared with 0. -/
def boolean : ByteParser Bool :=
  pMapRes (pTakeWhile1 isDigitB)
    (fun ds =>
      if natOfDigits ds < u32Bound then some (Nat.beq (natOfDigits ds) 0 = false)
      else none)

/-! ### Keyed parameters (`param_star`, `param_kv`, `params`) -/

/-- Header of a `*` meta-parameter: `"* "`, a decimal count, `"\n"`;
the value is the parsed count. -/
def starHeader : ByteParser Nat :=
  pThen (pTag [42, 32]) (fun _ => pThen integer (fun k => pMap (pTag [10]) (fun _ => k)))

/-- The source's `param_kv`: `ident <bytelen>\n<bytelen bytes>`, producing a
single key/value pair (the source wraps it in a singleton map). -/
def paramKV : ByteParser (List Nat × List Nat) :=
  pThen identAlphanum (fun key =>
    pThen (pTag [32]) (fun _ =>
      pThen integer (fun len =>
        pThen (pTag [10]) (fun _ =>
          pMap (pTake len) (fun v => (key, v))))))

/-- Worker for the source's `params` loop, fuelled for termination (the fuel
is ample whenever it exceeds the input length; see `paramsF_fuel`).  Each
loop iteration is nom's `alt!(param_star | param_kv)`: `param_star` is the
`starHeader` followed by a nested `params` run with the parsed count (which
contributes `+1` to the outer arity regardless of that count), and
`param_kv` contributes one pair.  The raw pairs are returned in parse order;
the caller folds them into the map exactly as the source's `ret.insert`
loop does. -/
def paramsF : Nat → List Nat → Nat → PResult (List (List Nat × List Nat))
  | 0, _, _ => .incomplete
  | _ + 1, _, 0 => .done 0 []
  | fuel + 1, inp, count + 1 =>
    match starHeader inp with
    | .done c k =>
      match paramsF fuel (inp.drop c) k with
      | .done c2 kvs =>
        match paramsF fuel (inp.drop (c + c2)) count with
        | .done c3 kvs3 => .done (c + c2 + c3) (kvs ++ kvs3)
        | .incomplete => .incomplete
        | .error => .error
      | .incomplete => .incomplete
      | .error =>
        match paramKV inp with
        | .done c' kv =>
          match paramsF fuel (inp.drop c') count with
          | .done c3 kvs3 => .done (c' + c3) (kv :: kvs3)
          | .incomplete => .incomplete
          | .error => .error
        | .incomplete => .incomplete
        | .error => .error
    | .incomplete => .incomplete
    | .error =>
      match paramKV inp with
      | .done c' kv =>
        match paramsF fuel (inp.drop c') count with
        | .done c3 kvs3 => .done (c' + c3) (kv :: kvs3)
        | .incomplete => .incomplete
        | .error => .error
      | .incomplete => .incomplete
      | .error => .error

/-- Parameter maps: Rust `HashMap<Vec<u8>, Vec<u8>>` modelled as an
association list in insertion order (iteration order of the Rust map is
unspecified and never observed by the parsers beyond key lookup). -/
abbrev ParamMap : Type := List (List Nat × List Nat)

/-- Source `HashMap::insert`: replace any previous binding of the key. -/
def mapInsertG {β : Type} (m : List (List Nat × β)) (k : List Nat) (v : β) :
    List (List Nat × β) :=
  m.filter (fun p => !(p.1 == k)) ++ [(k, v)]

/-- Fold raw pairs into a map, later bindings winning, as the source's
insertion loops (`ret.insert` / `HashMap::from_iter`) do. -/
def buildMapG {β : Type} (kvs : List (List Nat × β)) : List (List Nat × β) :=
  kvs.foldl (fun m kv => mapInsertG m kv.1 kv.2) []

/-- The source's `params` entry point (keyed parameter decoder). -/
def params (inp : List Nat) (count : Nat) : PResult ParamMap :=
  match paramsF (inp.length + 1) inp count with
  | .done n kvs => .done n (buildMapG kvs)
  | .incomplete => .incomplete
  | .error => .error

/-! ### Separated lists (nom 3.x `separated_list!` family) -/

/-- The trailing loop of nom's `separated_list!`: repeatedly parse
separator-then-item.  The loop's position advances only past complete
separator-item rounds: when the separator errs or consumes nothing, or the
item errs or consumes nothing after a successful separator, the loop ends
cleanly at the position before that separator (nom restores the
pre-separator input, leaving a trailing separator unconsumed); an
incomplete separator or item makes the whole list incomplete. -/
def sepLoopF {α β : Type} (sep : ByteParser α) (item : ByteParser β) :
    Nat → List Nat → PResult (List β)
  | 0, _ => .done 0 []
  | fuel + 1, inp =>
    match sep inp with
    | .error => .done 0 []
    | .incomplete => .incomplete
    | .done cs _ =>
      if cs = 0 then .done 0 []
      else
        match item (inp.drop cs) with
        | .error => .done 0 []
        | .incomplete => .incomplete
        | .done ci v =>
          if ci = 0 then .done 0 []
          else
            match sepLoopF sep item fuel (inp.drop (cs + ci)) with
            | .done cr vr => .done (cs + ci + cr) (v :: vr)
            | .incomplete => .incomplete
            | .error => .error

/-- nom's `separated_list!` head: an erring first item yields the empty
list, an incomplete one propagates, a zero-consumption one errors
(`ErrorKind::SeparatedList`); then the loop runs. -/
def sepListF {α β : Type} (sep : ByteParser α) (item : ByteParser β) :
    Nat → ByteParser (List β)
  | fuel, inp =>
    match item inp with
    | .error => .done 0 []
    | .incomplete => .incomplete
    | .done c v =>
      if c = 0 then .error
      else
        match sepLoopF sep item fuel (inp.drop c) with
        | .done cr vr => .done (c + cr) (v :: vr)
        | .incomplete => .incomplete
        | .error => .error

/-- nom `separated_list!(sep, item)` with ample fuel. -/
def sepList {α β : Type} (sep : ByteParser α) (item : ByteParser β) :
    ByteParser (List β) :=
  fun inp => sepListF sep item (inp.length + 1) inp

/-- nom `separated_list_complete!(sep, item)`: both sub-parsers wrapped in
`complete!`. -/
def sepListC {α β : Type} (sep : ByteParser α) (item : ByteParser β) :
    ByteParser (List β) :=
  sepList (pComplete sep) (pComplete item)

/-- nom `alt_complete!` over two branches. -/
def pAltC {α : Type} (p q : ByteParser α) : ByteParser α :=
  pAlt (pComplete p) (pComplete q)

/-! ### Escape alphabets -/

/-- Modelled from the spec: `batch::unescape` (module not under `src/`).
The batch escape alphabet maps `:c :o :s :e` to `: , ; =`; any other use of
`:` is malformed and aborts the parse. -/
def unescape : List Nat → Option (List Nat)
  | [] => some []
  | b :: rest =>
    if b = 58 then
      match rest with
      | [] => none
      | c :: rest2 =>
        match (if c = 99 then some 58
               else if c = 111 then some 44
               else if c = 115 then some 59
               else if c = 101 then some 61 else none) with
        | some x => (unescape rest2).map (x :: ·)
        | none => none
    else (unescape rest).map (b :: ·)

/-- Value of an ASCII hex digit (either case). -/
def hexVal (b : Nat) : Option Nat :=
  if 48 ≤ b ∧ b ≤ 57 then some (b - 48)
  else if 97 ≤ b ∧ b ≤ 102 then some (b - 87)
  else if 65 ≤ b ∧ b ≤ 70 then some (b - 55)
  else none

/-- Modelled from the spec: percent-decoding (`percent_encoding` crate, not
under `src/`).  `%HH` with valid hex decodes to a byte; malformed escapes
are kept verbatim, and an input without `%` decodes to itself. -/
def pctDecode : List Nat → List Nat
  | [] => []
  | 37 :: h1 :: h2 :: rest =>
    match hexVal h1, hexVal h2 with
    | some a, some b => (a * 16 + b) :: pctDecode rest
    | _, _ => 37 :: pctDecode (h1 :: h2 :: rest)
  | b :: rest => b :: pctDecode rest

/-- Modelled from the spec: Rust's `String::from_utf8` validity check
(UTF-8 as in RFC 3629, surrogates and overlong forms excluded). -/
def utf8Valid : List Nat → Bool
  | [] => true
  | b :: rest =>
    if b ≤ 127 then utf8Valid rest
    else if 194 ≤ b ∧ b ≤ 223 then
      match rest with
      | c1 :: r => decide (128 ≤ c1 ∧ c1 ≤ 191) && utf8Valid r
      | _ => false
    else if 224 ≤ b ∧ b ≤ 239 then
      match rest with
      | c1 :: c2 :: r =>
        (if b = 224 then decide (160 ≤ c1 ∧ c1 ≤ 191)
         else if b = 237 then decide (128 ≤ c1 ∧ c1 ≤ 159)
         else decide (128 ≤ c1 ∧ c1 ≤ 191)) &&
        decide (128 ≤ c2 ∧ c2 ≤ 191) && utf8Valid r
      | _ => false
    else if 240 ≤ b ∧ b ≤ 244 then
      match rest with
      | c1 :: c2 :: c3 :: r =>
        (if b = 240 then decide (144 ≤ c1 ∧ c1 ≤ 191)
         else if b = 244 then decide (128 ≤ c1 ∧ c1 ≤ 143)
         else decide (128 ≤ c1 ∧ c1 ≤ 191)) &&
        decide (128 ≤ c2 ∧ c2 ≤ 191) && decide (128 ≤ c3 ∧ c3 ≤ 191) &&
        utf8Valid r
      | _ => false
    else false

/-! ### Wire value parsers -/

/-- Modelled from the spec: `HgNodeHash::from_str` (mercurial-types, not
under `src/`) accepts exactly 40 lowercase hex digits; the hash value is
modelled by those 40 bytes. -/
def nodehash : ByteParser (List Nat) :=
  pMapRes (pTake 40) (fun v => if v.all isLowerHexB then some v else none)

/-- The source's `pair`: two nodehashes separated by `-`. -/
def pairHash : ByteParser (List Nat × List Nat) :=
  pThen nodehash (fun a =>
    pThen (pTag [45]) (fun _ => pMap nodehash (fun b => (a, b))))

/-- The source's `pairlist`. -/
def pairlist : ByteParser (List (List Nat × List Nat)) :=
  sepListC (pTag [32]) pairHash

/-- The source's `hashlist`. -/
def hashlist : ByteParser (List (List Nat)) :=
  sepListC (pTag [32]) nodehash

/-- The source's `stringlist`: space-separated alphanumeric runs.  The Rust
`String` values are modelled by their (always ASCII) bytes, since
`from_utf8`/`FromStr` cannot fail on them. -/
def stringlist : ByteParser (List (List Nat)) :=
  sepList (pComplete (pTag [32])) (pTakeWhile isAlnumB)

/-- Split on commas, as the Rust slice split on the comma byte (44). -/
def splitCommaGo (cur : List Nat) : List Nat → List (List Nat)
  | [] => [cur.reverse]
  | b :: rest =>
    if b = 44 then cur.reverse :: splitCommaGo [] rest
    else splitCommaGo (b :: cur) rest

/-- The source's `commavalues`: the input is assumed complete and exact;
an empty input yields the empty list, otherwise a comma split. -/
def commavalues : ByteParser (List (List Nat)) :=
  fun inp =>
    if inp.length = 0 then .done 0 []
    else .done inp.length (splitCommaGo [] inp)

/-- The source's `cmd`: a batched command, `name<space>args`, the args
running to `;` or end of input. -/
def cmdParse : ByteParser (List Nat × List Nat) :=
  pThen (pTakeUntilConsume1 [32]) (fun c =>
    pMap (pTakeWhile notSemi) (fun args => (c, args)))

/-- The source's `cmdlist`: `;`-separated batched commands. -/
def cmdlist : ByteParser (List (List Nat × List Nat)) :=
  sepList (pComplete (pTag [59])) cmdParse

/-- The source's `batch_param_escaped`: `key=value` with the batch escape
alphabet applied to both sides. -/
def batchParamEscaped : ByteParser (List Nat × List Nat) :=
  pMapRes
    (pThen (pTakeUntilConsume1 [61]) (fun k =>
      pMap (pTakeWhile notComma) (fun v => (k, v))))
    (fun kv =>
      match unescape kv.1, unescape kv.2 with
      | some k, some v => some (k, v)
      | _, _ => none)

/-- The source's `batch_params`: comma-delimited escaped pairs collected
into a map; the arity argument is ignored. -/
def batchParams (inp : List Nat) (_count : Nat) : PResult ParamMap :=
  pMap (sepListC (pTag [44]) batchParamEscaped) buildMapG inp

/-- The source's `batch_param_comma_separated`: a nonempty comma-free run,
unescaped. -/
def batchParamCommaSeparated : ByteParser (List Nat) :=
  pMapRes (pTakeWhile notComma)
    (fun k => if k.isEmpty then none else unescape k)

/-- The source's `gettreepack_directories`. -/
def gettreepackDirectories : ByteParser (List (List Nat)) :=
  sepListC (pTag [44]) batchParamCommaSeparated

/-- The source's `utf8_string_complete`: the whole input as a `String`;
modelled as the raw bytes guarded by UTF-8 validity. -/
def utf8StringComplete : ByteParser (List Nat) :=
  fun inp => if utf8Valid inp then .done inp.length inp else .error

/-- The source's `bytes_complete`: the whole input as raw bytes. -/
def bytesComplete : ByteParser (List Nat) :=
  fun inp => .done inp.length inp

/-- The source's `ident_string`: `ident_complete(ident)` rendered lossily;
the `ident` class is pure ASCII so the rendering is the identity. -/
def identString : ByteParser (List Nat) :=
  identComplete ident

/-- The source's `ident_string_alphanum`. -/
def identStringAlphanum : ByteParser (List Nat) :=
  identComplete identAlphanum

/-- The source's `percent_decoded`. -/
def percentDecoded : ByteParser (List Nat) :=
  pMap (identComplete ident) pctDecode

/-- The source's `percent_decoded_string`: percent-decoded bytes that must
form valid UTF-8. -/
def percentDecodedString : ByteParser (List Nat) :=
  pMapRes percentDecoded (fun v => if utf8Valid v then some v else none)

/-- A bundlecaps capability value: `param -> set of strings`, the Rust
`HashMap`/`HashSet` modelled as lists in parse order. -/
abbrev BundlecapsVal : Type := List (List Nat × List (List Nat))

/-- The source's `bundlecaps_values_list`. -/
def bundlecapsValuesList : ByteParser (List (List Nat)) :=
  pAltC (sepListC (pTag [44]) percentDecodedString)
    (pMap percentDecodedString (fun s => [s]))

/-- The source's `bundlecaps_param`. -/
def bundlecapsParam : ByteParser (List Nat × List (List Nat)) :=
  pAltC
    (pThen percentDecodedString (fun k =>
      pThen (pTag [61]) (fun _ =>
        pMap bundlecapsValuesList (fun vs => (k, vs)))))
    (pMap percentDecodedString (fun k => (k, [])))

/-- The source's `bundlecaps_params`. -/
def bundlecapsParams : ByteParser BundlecapsVal :=
  pMap (sepListC (pTag [10]) bundlecapsParam) buildMapG

/-- The source's `bundlecaps_params_decoded`: percent-decode the input, run
`bundlecaps_params` over the decoded bytes (its own leftover is discarded),
and keep the outer rest. -/
def bundlecapsParamsDecoded : ByteParser BundlecapsVal :=
  fun inp =>
    match percentDecoded inp with
    | .done n y =>
      match bundlecapsParams y with
      | .done _ z => .done n z
      | .incomplete => .incomplete
      | .error => .error
    | .incomplete => .incomplete
    | .error => .error

/-- The source's `bundlecaps_arg`. -/
def bundlecapsArg : ByteParser (List Nat × BundlecapsVal) :=
  pAltC
    (pThen identString (fun k =>
      pThen (pTag [61]) (fun _ =>
        pMap bundlecapsParamsDecoded (fun m => (k, m)))))
    (pMap identString (fun k => (k, [])))

/-- The source's `bundlecaps_args`. -/
def bundlecapsArgs : ByteParser (List (List Nat × BundlecapsVal)) :=
  pMap (sepListC (pTag [44]) bundlecapsArg) buildMapG

/-- The `depth` value parser of `gettreepack` (`take_while1!(is_digit)`
parsed as `usize`). -/
def depthValue : ByteParser Nat :=
  pMapRes (pTakeWhile1 isDigitB)
    (fun ds => if natOfDigits ds < usizeBound then some (natOfDigits ds) else none)

/-! ### Parameter lookup (`parseval` family) -/

/-- The source's `parseval`: look up a required key and run a parser over
its complete value; the parser must consume the value exactly (`eof!`).
All the distinct bail-out messages collapse to `none`, as `parse_command`
itself collapses them to a single nom error. -/
def parseval {α : Type} (m : ParamMap) (key : List Nat) (p : ByteParser α) :
    Option α :=
  match List.lookup key m with
  | none => none
  | some v =>
    match p v with
    | .done n x => if v.drop n = [] then some x else none
    | .incomplete => none
    | .error => none

/-- The source's `parseval_default`: a missing key yields `Default::default()`
(passed explicitly here). -/
def parsevalDefault {α : Type} (m : ParamMap) (key : List Nat) (p : ByteParser α)
    (dflt : α) : Option α :=
  match List.lookup key m with
  | none => some dflt
  | some v =>
    match p v with
    | .done n x => if v.drop n = [] then some x else none
    | .incomplete => none
    | .error => none

/-- The source's `parseval_option`: a missing key yields `None`. -/
def parsevalOption {α : Type} (m : ParamMap) (key : List Nat) (p : ByteParser α) :
    Option (Option α) :=
  match List.lookup key m with
  | none => some none
  | some v =>
    match p v with
    | .done n x => if v.drop n = [] then some (some x) else none
    | .incomplete => none
    | .error => none

/-! ### Requests -/

/-- The `getbundle` argument record (`GetbundleArgs`). -/
structure GetbundleArgs where
  heads : List (List Nat)
  common : List (List Nat)
  bundlecaps : List (List Nat × BundlecapsVal)
  listkeys : List (List Nat)
  phases : Bool
  deriving DecidableEq, Repr

/-- The `gettreepack` argument record (`GettreepackArgs`). -/
structure GettreepackArgs where
  rootdir : List Nat
  mfnodes : List (List Nat)
  basemfnodes : List (List Nat)
  directories : List (List Nat)
  depth : Option Nat
  deriving DecidableEq, Repr

/-- The `SingleRequest` sum over the command set. -/
inductive SingleRequest : Type where
  | between (pairs : List (List Nat × List Nat))
  | branchmap
  | capabilities
  | debugwireargs (one two : List Nat) (allArgs : ParamMap)
  | getbundle (args : GetbundleArgs)
  | heads
  | hello
  | listkeys (nsp : List Nat)
  | lookupKey (key : List Nat)
  | known (nodes : List (List Nat))
  | unbundle (heads : List (List Nat))
  | gettreepack (args : GettreepackArgs)
  | getfiles
  | streamOutShallow
  deriving DecidableEq, Repr

/-- Source `Request := Single | Batch`. -/
inductive Request : Type where
  | single (r : SingleRequest)
  | batch (rs : List SingleRequest)
  deriving DecidableEq, Repr

/-! ### Command names and parameter keys (ASCII bytes) -/

def nBatch : List Nat := [98, 97, 116, 99, 104]
def nBetween : List Nat := [98, 101, 116, 119, 101, 101, 110]
def nBranchmap : List Nat := [98, 114, 97, 110, 99, 104, 109, 97, 112]
def nCapabilities : List Nat := [99, 97, 112, 97, 98, 105, 108, 105, 116, 105, 101, 115]
def nDebugwireargs : List Nat := [100, 101, 98, 117, 103, 119, 105, 114, 101, 97, 114, 103, 115]
def nGetbundle : List Nat := [103, 101, 116, 98, 117, 110, 100, 108, 101]
def nHeads : List Nat := [104, 101, 97, 100, 115]
def nHello : List Nat := [104, 101, 108, 108, 111]
def nListkeys : List Nat := [108, 105, 115, 116, 107, 101, 121, 115]
def nLookup : List Nat := [108, 111, 111, 107, 117, 112]
def nKnown : List Nat := [107, 110, 111, 119, 110]
def nUnbundle : List Nat := [117, 110, 98, 117, 110, 100, 108, 101]
def nGettreepack : List Nat := [103, 101, 116, 116, 114, 101, 101, 112, 97, 99, 107]
def nGetfiles : List Nat := [103, 101, 116, 102, 105, 108, 101, 115]
def nStreamOutShallow : List Nat :=
  [115, 116, 114, 101, 97, 109, 95, 111, 117, 116, 95, 115, 104, 97, 108, 108, 111, 119]

def kPairs : List Nat := [112, 97, 105, 114, 115]
def kCmds : List Nat := [99, 109, 100, 115]
def kOne : List Nat := [111, 110, 101]
def kTwo : List Nat := [116, 119, 111]
def kHeads : List Nat := [104, 101, 97, 100, 115]
def kCommon : List Nat := [99, 111, 109, 109, 111, 110]
def kBundlecaps : List Nat := [98, 117, 110, 100, 108, 101, 99, 97, 112, 115]
def kListkeys : List Nat := [108, 105, 115, 116, 107, 101, 121, 115]
def kPhases : List Nat := [112, 104, 97, 115, 101, 115]
def kNamespace : List Nat := [110, 97, 109, 101, 115, 112, 97, 99, 101]
def kKey : List Nat := [107, 101, 121]
def kNodes : List Nat := [110, 111, 100, 101, 115]
def kRootdir : List Nat := [114, 111, 111, 116, 100, 105, 114]
def kMfnodes : List Nat := [109, 102, 110, 111, 100, 101, 115]
def kBasemfnodes : List Nat := [98, 97, 115, 101, 109, 102, 110, 111, 100, 101, 115]
def kDirectories : List Nat := [100, 105, 114, 101, 99, 116, 111, 114, 105, 101, 115]
def kDepth : List Nat := [100, 101, 112, 116, 104]

/-! ### Command dispatch -/

/-- The source's `parse_command`: tag the command name and a newline, run
the parameter decoder with the declared arity, then build the request; a
failing constructor becomes a nom error. -/
def parseCommand {T : Type} (name : List Nat)
    (pp : List Nat → Nat → PResult ParamMap) (nargs : Nat)
    (func : ParamMap → Option T) : ByteParser T :=
  fun inp =>
    match (pThen (pTag name) (fun _ =>
             pThen (pTag [10]) (fun _ => fun i => pp i nargs))) inp with
    | .done n kv =>
      match func kv with
      | some t => .done n t
      | none => .error
    | .incomplete => .incomplete
    | .error => .error

/-- Constructor for `between`. -/
def funcBetween (kv : ParamMap) : Option SingleRequest :=
  (parseval kv kPairs pairlist).map .between

/-- Constructor for `debugwireargs`. -/
def funcDebugwireargs (kv : ParamMap) : Option SingleRequest := do
  let one ← parseval kv kOne (identComplete identAlphanum)
  let two ← parseval kv kTwo (identComplete identAlphanum)
  some (.debugwireargs one two kv)

/-- Constructor for `getbundle`. -/
def funcGetbundle (kv : ParamMap) : Option SingleRequest := do
  let heads ← parsevalDefault kv kHeads hashlist []
  let common ← parsevalDefault kv kCommon hashlist []
  let bundlecaps ← parsevalDefault kv kBundlecaps bundlecapsArgs []
  let listkeys ← parsevalDefault kv kListkeys commavalues []
  let phases ← parsevalDefault kv kPhases boolean false
  some (.getbundle ⟨heads, common, bundlecaps, listkeys, phases⟩)

/-- Constructor for `listkeys`. -/
def funcListkeys (kv : ParamMap) : Option SingleRequest :=
  (parseval kv kNamespace identStringAlphanum).map .listkeys

/-- Constructor for `lookup`. -/
def funcLookup (kv : ParamMap) : Option SingleRequest :=
  (parseval kv kKey utf8StringComplete).map .lookupKey

/-- Constructor for `known`. -/
def funcKnown (kv : ParamMap) : Option SingleRequest :=
  (parseval kv kNodes hashlist).map .known

/-- Constructor for `unbundle`. -/
def funcUnbundle (kv : ParamMap) : Option SingleRequest :=
  (parseval kv kHeads stringlist).map .unbundle

/-- Constructor for `gettreepack`. -/
def funcGettreepack (kv : ParamMap) : Option SingleRequest := do
  let rootdir ← parseval kv kRootdir bytesComplete
  let mfnodes ← parseval kv kMfnodes hashlist
  let basemfnodes ← parseval kv kBasemfnodes hashlist
  let directories ← parseval kv kDirectories gettreepackDirectories
  let depth ← parsevalOption kv kDepth depthValue
  some (.gettreepack ⟨rootdir, mfnodes, basemfnodes, directories, depth⟩)

/-- The source's `parse_with_params`: the `alt!` chain over the command
table, generalized over the parameter decoder. -/
def parseWithParams (pp : List Nat → Nat → PResult ParamMap) :
    ByteParser SingleRequest :=
  pAlt (parseCommand nBetween pp 1 funcBetween)
  (pAlt (parseCommand nBranchmap pp 0 (fun _ => some .branchmap))
  (pAlt (parseCommand nCapabilities pp 0 (fun _ => some .capabilities))
  (pAlt (parseCommand nDebugwireargs pp 3 funcDebugwireargs)
  (pAlt (parseCommand nGetbundle pp 1 funcGetbundle)
  (pAlt (parseCommand nHeads pp 0 (fun _ => some .heads))
  (pAlt (parseCommand nHello pp 0 (fun _ => some .hello))
  (pAlt (parseCommand nListkeys pp 1 funcListkeys)
  (pAlt (parseCommand nLookup pp 1 funcLookup)
  (pAlt (parseCommand nKnown pp 2 funcKnown)
  (pAlt (parseCommand nUnbundle pp 1 funcUnbundle)
  (pAlt (parseCommand nGettreepack pp 1 funcGettreepack)
  (pAlt (parseCommand nGetfiles pp 0 (fun _ => some .getfiles))
        (parseCommand nStreamOutShallow pp 1 (fun _ => some .streamOutShallow))))))))))))))

/-- The source's `parse_singlerequest`. -/
def parseSingleRequest : ByteParser SingleRequest :=
  parseWithParams params

/-- Sub-command parses inside a batch use the batch-escaped decoder. -/
def parseCmdBatch : ByteParser SingleRequest :=
  parseWithParams batchParams

/-- The envelope of `parse_batchrequest`:
`command_star!("batch", Batch, params, { cmds => cmdlist })`. -/
def funcBatch (kv : ParamMap) : Option (List (List Nat × List Nat)) :=
  parseval kv kCmds cmdlist

/-- Result of the sub-command loop in `parse_batchrequest`. -/
inductive LoopRes : Type where
  | ok (rs : List SingleRequest)
  | incomplete
  | error
  deriving DecidableEq, Repr

/-- The sub-command loop of `parse_batchrequest`: for each batched command,
synthesize `name\nargs`, parse it with the batch-escaped decoder under
`complete!`, and require the parse to consume the whole synthesized buffer. -/
def batchLoop : List (List Nat × List Nat) → LoopRes
  | [] => .ok []
  | c :: cs =>
    match pComplete parseCmdBatch (c.1 ++ 10 :: c.2) with
    | .done n out =>
      if (c.1 ++ 10 :: c.2).drop n = [] then
        match batchLoop cs with
        | .ok rs => .ok (out :: rs)
        | r => r
      else .error
    | .incomplete => .incomplete
    | .error => .error

/-- The source's `parse_batchrequest`. -/
def parseBatchRequest : ByteParser (List SingleRequest) :=
  fun inp =>
    match parseCommand nBatch params 2 funcBatch inp with
    | .done n cmds =>
      match batchLoop cmds with
      | .ok rs => .done n rs
      | .incomplete => .incomplete
      | .error => .error
    | .incomplete => .incomplete
    | .error => .error

/-- The top-level alternative of the incremental driver:
`alt!(map!(parse_batchrequest, Batch) | map!(parse_singlerequest, Single))`. -/
def topAlt : ByteParser Request :=
  pAlt (pMap parseBatchRequest Request.batch)
    (pMap parseSingleRequest Request.single)

/-- The source's `parse_request` driver over a `BytesMut` buffer: the first
component is the `Result<Option<Request>>` (the `Err` payload is the raw
buffer, standing for its lossy UTF-8 rendering in `CommandParse`), the
second is the buffer after the call (`split_to(consumed)` on success). -/
def parseRequest (buf : List Nat) :
    Except (List Nat) (Option Request) × List Nat :=
  match topAlt buf with
  | .done n v => (.ok (some v), buf.drop n)
  | .incomplete => (.ok none, buf)
  | .error => (.error buf, buf)

end Ssh

namespace Subm

/-!
CORE B: the submodule-expansion validator of
`git_submodules/validation.rs`, embedded over an explicit environment.
The storage collaborators (blobstore loads, derived data, helpers of the
`utils` module which is not under `src/`) are environment functions; the
async control flow is pure and sequential here (the source's
`buffer_unordered` recursion is order-unspecified with first-error-wins, so
a sequential model realizes one admissible schedule).  `MPathElement` is a
byte list, `NonRootMPath` a component list, ids are naturals.
-/

/-- Source `MPathElement`: one path component, as bytes. -/
abbrev El : Type := List Nat

/-- Source `NonRootMPath`: a non-empty component sequence (non-emptiness is not
enforced by the type; the embedded code never fabricates empty paths). -/
abbrev Path : Type := List El

/-- Source `FileType` of a fsnode file entry. -/
inductive FileType : Type where
  | regular
  | executable
  | symlink
  | gitSubmodule
  deriving DecidableEq, Repr

/-- Source `FileChange` of a bonsai changeset; content ids are naturals. -/
inductive FileChange : Type where
  | change (contentId : Nat)
  | untrackedChange (contentId : Nat)
  | deletion
  | untrackedDeletion
  deriving DecidableEq, Repr

/-- Modelled from the spec: `FileChange::is_removed` (mononoke_types, not
under `src/`): deletions, tracked or untracked. -/
def FileChange.isRemoved : FileChange → Bool
  | .deletion => true
  | .untrackedDeletion => true
  | _ => false

/-- A fsnode entry: a file (content id and type) or a sub-directory
(fsnode id). -/
inductive FsnodeEntry : Type where
  | file (contentId : Nat) (ftype : FileType)
  | directory (id : Nat)
  deriving DecidableEq, Repr

/-- A fsnode: its subentries, keyed by path element. -/
abbrev Fsnode : Type := List (El × FsnodeEntry)

/-- Source `BonsaiChangeset`: parents and the file-change map (association list in
map iteration order). -/
structure Bonsai where
  csId : Nat
  parents : List Nat
  fileChanges : List (Path × FileChange)
  deriving DecidableEq, Repr

/-- Validation errors.  Each `anyhow!`/`ensure!` site gets a constructor;
`panicHashMismatch` stands for the `assert_eq!` panic on recursive
submodule hash mismatch (a panic also propagates out of the validation
call, it is never caught in this code).  `fuelLimit` is a model artifact
standing for the unbounded async recursion depth. -/
inductive VErr : Type where
  | moverNone
  | expansionChangedWithoutMetadataUpdate (smPath mdPath : Path)
  | metadataDeletedExpansionNot
  | parentDerivation (cs : Nat)
  | expansionPathIsFile
  | noFsnodeEntry
  | subPathNotInExpansion (p : El)
  | expectedMetadataFile (p : El)
  | expansionEntryIsFile (p : El)
  | shouldBeGitSubmoduleFile (p : El)
  | notGitSubmoduleType (p : El)
  | metadataFileNotFound (mdName : El) (p : El)
  | panicHashMismatch (h1 h2 : List Nat)
  | recursiveSubmoduleNotLoaded (p : Path)
  | unaccountedDirs
  | unaccountedFiles
  | unaccountedMdFiles
  | storage (code : Nat)
  | fuelLimit
  deriving DecidableEq, Repr

/-- The storage/derivation collaborators, as an explicit environment.
Fields model (in order): `git_hash_from_submodule_metadata_file` (reads a
blob of the large repo), `get_git_hash_from_submodule_file` (reads a blob
of the given repo), `root_fsnode_id_from_submodule_git_commit`,
`Fsnode::load` from a repo blobstore, `derive::<RootFsnodeId>` for a parent
changeset, `RootFsnodeId::derive_single`, and
`list_non_submodule_files_under` — all modelled from the spec, since the
`utils` module and the stores are not under `src/`. -/
structure Env where
  gitHashFromMetadataFile : Nat → Except VErr (List Nat)
  gitHashFromSubmoduleFile : Nat → Nat → Except VErr (List Nat)
  rootFsnodeFromGitCommit : Nat → List Nat → Except VErr Nat
  loadFsnode : Nat → Nat → Except VErr Fsnode
  deriveParentRootFsnode : Nat → Except VErr Nat
  deriveSingle : Bonsai → List Nat → Except VErr Nat
  listNonSubmoduleFilesUnder : Nat → Path → Except VErr (List Path)

/-- Source `SubmoduleExpansionData`: the large repo, the metadata-file basename
marker (`x_repo_submodule_metadata_file_prefix` in the source), and the
declared submodule dependencies. -/
structure SmExpData where
  largeRepo : Nat
  mdMarker : List Nat
  submoduleDeps : List (Path × Nat)
  deriving Repr

/-- Modelled from the spec: `NonRootMPath::is_prefix_of` — component-wise
prefix, equality included. -/
def isPathPrefixOf (p q : Path) : Bool := p.isPrefixOf q

/-- Modelled from the spec (§4.10): `remove_prefix_component` strips a
strict component-wise prefix, returning the non-empty remainder. -/
def removePrefixComponent (p pfx : Path) : Option Path :=
  if pfx.isPrefixOf p ∧ pfx.length < p.length then some (p.drop pfx.length)
  else none

/-- Modelled from the spec: `x_repo_submodule_metadata_file_basename` — the
basename `.<marker>-<name>` of the metadata file for a submodule whose
expansion directory is named `name`. -/
def metadataBasename (marker : List Nat) (name : El) : El :=
  46 :: (marker ++ 45 :: name)

/-- Modelled from the spec: `get_x_repo_submodule_metadata_file_path` — the
metadata file sits next to the expansion directory. -/
def metadataFilePath (marker : List Nat) (synced : Path) : Path :=
  match synced.getLast? with
  | some name => synced.dropLast ++ [metadataBasename marker name]
  | none => []

/-- Membership of a key in an association list. -/
def containsKeyEl {β : Type} (l : List (El × β)) (k : El) : Bool :=
  l.any (fun x => decide (x.1 = k))

/-- Source `HashMap::remove`, dropping a key. -/
def removeKey {β : Type} (l : List (El × β)) (k : El) : List (El × β) :=
  l.filter (fun x => !(decide (x.1 = k)))

/-- The `try_all` body: does the bonsai delete this path?
(`fc_map.get(&path)` then `fc.is_removed()`, absent means not deleted). -/
def fcRemovedAt (fcs : List (Path × FileChange)) (q : Path) : Bool :=
  match List.lookup q fcs with
  | some fc => fc.isRemoved
  | none => false

/-! ### Deletion-consistency check (`ensure_submodule_expansion_deletion`) -/

/-- The flattened `try_all` over the parents' file listings: parents are
consulted in order, a parent's listing is only fetched when all earlier
files were deletions (the stream is lazy), and a non-deleted file
short-circuits to `false`. -/
def checkParentsDeleted (env : Env) (fcs : List (Path × FileChange))
    (synced : Path) : List Nat → Except VErr Bool
  | [] => .ok true
  | p :: ps =>
    match env.listNonSubmoduleFilesUnder p synced with
    | .error e => .error e
    | .ok files =>
      if files.all (fcRemovedAt fcs) then
        checkParentsDeleted env fcs synced ps
      else .ok false

/-- The implicit-deletion test of `ensure_submodule_expansion_deletion`:
the expansion root path has a content change (tracked or untracked) in the
bonsai, i.e. a file replaced the expansion directory. -/
def implicitlyDeleted (fcs : List (Path × FileChange)) (synced : Path) : Bool :=
  match List.lookup synced fcs with
  | some (.change _) => true
  | some (.untrackedChange _) => true
  | _ => false

/-- The source's `ensure_submodule_expansion_deletion`: accept an implicit
deletion (a content change at the expansion root); otherwise require every
non-submodule file under the expansion path in each parent to be deleted in
this bonsai. -/
def ensureSubmoduleExpansionDeletion (env : Env) (bonsai : Bonsai)
    (synced : Path) : Except VErr Bonsai :=
  if implicitlyDeleted bonsai.fileChanges synced then .ok bonsai
  else
    match checkParentsDeleted env bonsai.fileChanges synced bonsai.parents with
    | .error e => .error e
    | .ok true => .ok bonsai
    | .ok false => .error .metadataDeletedExpansionNot

/-! ### Expansion fsnode lookup (`get_submodule_expansion_fsnode_id`) -/

/-- Modelled from the spec: `ManifestOps::find_entry` — walk the fsnode
tree along the path; a missing component or an intermediate file yields
`None`. -/
def findEntryF (env : Env) (repo : Nat) : Nat → Path → Except VErr (Option FsnodeEntry)
  | rootId, [] => .ok (some (.directory rootId))
  | rootId, c :: rest =>
    match env.loadFsnode repo rootId with
    | .error e => .error e
    | .ok entries =>
      match List.lookup c entries with
      | none => .ok none
      | some (.file cid ft) =>
        if rest = [] then .ok (some (.file cid ft)) else .ok none
      | some (.directory id2) =>
        if rest = [] then .ok (some (.directory id2))
        else findEntryF env repo id2 rest

/-- The source's `get_submodule_expansion_fsnode_id`: derive the new root
fsnode from the parents' roots, walk to the expansion path, and require a
directory there. -/
def getSubmoduleExpansionFsnodeId (env : Env) (smd : SmExpData)
    (bonsai : Bonsai) (synced : Path) : Except VErr Nat :=
  match bonsai.parents.mapM env.deriveParentRootFsnode with
  | .error e => .error e
  | .ok parentRoots =>
    match env.deriveSingle bonsai parentRoots with
    | .error e => .error e
    | .ok newRoot =>
      match findEntryF env smd.largeRepo newRoot synced with
      | .error e => .error e
      | .ok (some (.directory fsid)) => .ok fsid
      | .ok (some (.file _ _)) => .error .expansionPathIsFile
      | .ok none => .error .noFsnodeEntry

/-! ### Tree-diff engine
(`validate_working_copy_of_expansion_with_recursive_submodules`) -/

/-- A queued recursive validation (`EntriesToValidate`). -/
structure EntryToValidate where
  recDeps : List (Path × Nat)
  repo : Nat
  expId : Nat
  subId : Nat
  deriving DecidableEq, Repr

/-- The fold state (`EntryValidationData`): remaining submodule dirs and
files, remaining expansion-only (metadata) files, queued recursive calls. -/
structure EntryValidationData where
  dirs : List (El × Nat)
  files : List (El × (Nat × FileType))
  mdFiles : List (El × (Nat × FileType))
  entries : List EntryToValidate
  deriving DecidableEq, Repr

/-- STEP 2 of the diff: no submodule-manifest path may be missing from the
expansion; split the residual submodule entries into directories and
files. -/
def partitionSubOnly (expOnly : List (El × FsnodeEntry)) :
    List (El × FsnodeEntry) →
    Except VErr (List (El × Nat) × List (El × (Nat × FileType)))
  | [] => .ok ([], [])
  | (p, e) :: rest =>
    if containsKeyEl expOnly p then
      match partitionSubOnly expOnly rest with
      | .error er => .error er
      | .ok (ds, fs) =>
        match e with
        | .directory id => .ok ((p, id) :: ds, fs)
        | .file cid ft => .ok (ds, (p, (cid, ft)) :: fs)
    else .error (.subPathNotInExpansion p)

/-- STEP 3a: expansion-only entries not present in the submodule manifest
must be (metadata) files. -/
def collectMdFiles : List (El × FsnodeEntry) →
    Except VErr (List (El × (Nat × FileType)))
  | [] => .ok []
  | (p, .file cid ft) :: rest => (collectMdFiles rest).map ((p, (cid, ft)) :: ·)
  | (p, .directory _) :: _ => .error (.expectedMetadataFile p)

/-- STEP 3b: expansion entries whose path is also in the submodule manifest
must be directories. -/
def collectExpDirs : List (El × FsnodeEntry) →
    Except VErr (List (El × Nat))
  | [] => .ok []
  | (p, .directory id) :: rest => (collectExpDirs rest).map ((p, id) :: ·)
  | (p, .file _ _) :: _ => .error (.expansionEntryIsFile p)

/-- The source's
`validate_expansion_directory_against_submodule_manifest_entry`: one step
of the sequential fold.  An expansion directory matching a submodule
directory queues an ordinary recursive diff; one matching a `GitSubmodule`
file must come with its sibling metadata file, whose stored git hash must
equal (`assert_eq!`) the hash in the submodule's `GitSubmodule` file, and
queues a recursive diff against the recursive submodule's root. -/
def validateExpDirectory (env : Env) (smd : SmExpData) (smRepo : Nat)
    (adjustedDeps : List (Path × Nat)) (st : EntryValidationData)
    (expPath : El) (expDirId : Nat) : Except VErr EntryValidationData :=
  let recDeps : List (Path × Nat) := adjustedDeps.filterMap
    (fun pr => (removePrefixComponent pr.1 [expPath]).map (fun rel => (rel, pr.2)))
  match List.lookup expPath st.dirs with
  | some subDirId =>
    .ok { st with
          dirs := removeKey st.dirs expPath,
          entries := st.entries ++ [⟨recDeps, smRepo, expDirId, subDirId⟩] }
  | none =>
    match List.lookup expPath st.files with
    | none => .error (.shouldBeGitSubmoduleFile expPath)
    | some (cid, ft) =>
      if ft ≠ .gitSubmodule then .error (.notGitSubmoduleType expPath)
      else
        let mdName := metadataBasename smd.mdMarker expPath
        match List.lookup mdName st.mdFiles with
        | none => .error (.metadataFileNotFound mdName expPath)
        | some (mdCid, _) =>
          match env.gitHashFromMetadataFile mdCid with
          | .error e => .error e
          | .ok expMetadataGitHash =>
            match env.gitHashFromSubmoduleFile smRepo cid with
            | .error e => .error e
            | .ok gitHashFromSmEntry =>
              if expMetadataGitHash ≠ gitHashFromSmEntry then
                .error (.panicHashMismatch expMetadataGitHash gitHashFromSmEntry)
              else
                match List.lookup ([expPath] : Path) adjustedDeps with
                | none => .error (.recursiveSubmoduleNotLoaded [expPath])
                | some recRepo =>
                  match env.rootFsnodeFromGitCommit recRepo expMetadataGitHash with
                  | .error e => .error e
                  | .ok recSubFsnodeId =>
                    .ok { dirs := st.dirs,
                          files := removeKey st.files expPath,
                          mdFiles := removeKey st.mdFiles mdName,
                          entries := st.entries ++
                            [⟨recDeps, recRepo, expDirId, recSubFsnodeId⟩] }

/-- STEP 4: the sequential `try_fold` over the expansion directories. -/
def validateFoldEntries (env : Env) (smd : SmExpData) (smRepo : Nat)
    (adjustedDeps : List (Path × Nat)) :
    EntryValidationData → List (El × Nat) → Except VErr EntryValidationData
  | st, [] => .ok st
  | st, (p, id) :: rest =>
    match validateExpDirectory env smd smRepo adjustedDeps st p id with
    | .error e => .error e
    | .ok st' => validateFoldEntries env smd smRepo adjustedDeps st' rest

/-- First error of the recursive validation results (the source runs them
with bounded fan-out and surfaces the first failure; the order is
unspecified, this model fixes queue order). -/
def firstErrOrUnit : List (Except VErr Unit) → Except VErr Unit
  | [] => .ok ()
  | .ok _ :: rest => firstErrOrUnit rest
  | .error e :: _ => .error e

/-- The source's
`validate_working_copy_of_expansion_with_recursive_submodules`, fuelled on
recursion depth (the async source is unbounded): load both fsnodes, drop
the entries equal on both sides, classify the residue (STEPs 2-3), fold the
expansion directories (STEP 4), require everything consumed (STEP 5), and
recurse on the queued entries (STEP 6). -/
def validateWorkingCopyF (env : Env) (smd : SmExpData) :
    Nat → List (Path × Nat) → Nat → Nat → Nat → Except VErr Unit
  | 0, _, _, _, _ => .error .fuelLimit
  | fuel + 1, adjustedDeps, smRepo, expId, subId =>
    match env.loadFsnode smRepo subId with
    | .error e => .error e
    | .ok submoduleFsnode =>
      match env.loadFsnode smd.largeRepo expId with
      | .error e => .error e
      | .ok expansionFsnode =>
        let subOnly := submoduleFsnode.filter
          (fun e => !(expansionFsnode.any (fun x => decide (x = e))))
        let expOnly := expansionFsnode.filter
          (fun e => !(submoduleFsnode.any (fun x => decide (x = e))))
        match partitionSubOnly expOnly subOnly with
        | .error e => .error e
        | .ok (smDirs, smFiles) =>
          let parts := expOnly.partition
            (fun pe => containsKeyEl smDirs pe.1 || containsKeyEl smFiles pe.1)
          match collectMdFiles parts.2 with
          | .error e => .error e
          | .ok mdFiles =>
            match collectExpDirs parts.1 with
            | .error e => .error e
            | .ok expDirs =>
              match validateFoldEntries env smd smRepo adjustedDeps
                  ⟨smDirs, smFiles, mdFiles, []⟩ expDirs with
              | .error e => .error e
              | .ok st =>
                if st.dirs ≠ [] then .error .unaccountedDirs
                else if st.files ≠ [] then .error .unaccountedFiles
                else if st.mdFiles ≠ [] then .error .unaccountedMdFiles
                else
                  firstErrOrUnit (st.entries.map (fun e =>
                    validateWorkingCopyF env smd fuel e.recDeps e.repo
                      e.expId e.subId))

/-! ### Per-submodule validation (`validate_submodule_expansion`) -/

/-- STEPs 2-3 of `validate_submodule_expansion`, for a changed metadata
file with the given content id: resolve both fsnodes, fast-exit on
equality, otherwise adjust the dependency map and run the tree diff. -/
def validateChangedMetadata (fuel : Nat) (env : Env) (smd : SmExpData)
    (bonsai : Bonsai) (smPath : Path) (smRepo : Nat) (synced : Path)
    (cid : Nat) : Except VErr Bonsai :=
  match env.gitHashFromMetadataFile cid with
  | .error e => .error e
  | .ok gitHash =>
    match env.rootFsnodeFromGitCommit smRepo gitHash with
    | .error e => .error e
    | .ok subFsnodeId =>
      match getSubmoduleExpansionFsnodeId env smd bonsai synced with
      | .error e => .error e
      | .ok expFsnodeId =>
        if subFsnodeId = expFsnodeId then .ok bonsai
        else
          let adjustedDeps : List (Path × Nat) := smd.submoduleDeps.filterMap
            (fun pr => (removePrefixComponent pr.1 smPath).map
              (fun rel => (rel, pr.2)))
          match validateWorkingCopyF env smd fuel adjustedDeps smRepo
              expFsnodeId subFsnodeId with
          | .error e => .error e
          | .ok _ => .ok bonsai

/-- The source's `validate_submodule_expansion`. -/
def validateSubmoduleExpansion (fuel : Nat) (env : Env) (smd : SmExpData)
    (bonsai : Bonsai) (smPath : Path) (smRepo : Nat)
    (mover : Path → Except VErr (Option Path)) : Except VErr Bonsai :=
  match mover smPath with
  | .error e => .error e
  | .ok none => .error .moverNone
  | .ok (some synced) =>
    let expansionChanged :=
      bonsai.fileChanges.any (fun pc => isPathPrefixOf synced pc.1)
    let mdPath := metadataFilePath smd.mdMarker synced
    match List.lookup mdPath bonsai.fileChanges with
    | none =>
      if expansionChanged then
        .error (.expansionChangedWithoutMetadataUpdate smPath mdPath)
      else .ok bonsai
    | some fc =>
      match fc with
      | .deletion => ensureSubmoduleExpansionDeletion env bonsai synced
      | .untrackedDeletion => ensureSubmoduleExpansionDeletion env bonsai synced
      | .change cid => validateChangedMetadata fuel env smd bonsai smPath smRepo synced cid
      | .untrackedChange cid => validateChangedMetadata fuel env smd bonsai smPath smRepo synced cid

/-- The sequential `try_fold` of `validate_all_submodule_expansions`. -/
def validateAllFold (fuel : Nat) (env : Env) (smd : SmExpData)
    (mover : Path → Except VErr (Option Path)) :
    List (Path × Nat) → Bonsai → Except VErr Bonsai
  | [], b => .ok b
  | (p, r) :: rest, b =>
    match validateSubmoduleExpansion fuel env smd b p r mover with
    | .error e => .error e
    | .ok b' => validateAllFold fuel env smd mover rest b'

/-- The source's `validate_all_submodule_expansions`. -/
def validateAllSubmoduleExpansions (fuel : Nat) (env : Env) (smd : SmExpData)
    (bonsai : Bonsai) (mover : Path → Except VErr (Option Path)) :
    Except VErr Bonsai :=
  validateAllFold fuel env smd mover smd.submoduleDeps bonsai

end Subm

namespace Ssh

/-! ### Streaming-stability predicates

The incremental-driver claims reduce to three properties of the parsers on
the streaming path: a `Done` result is stable under appending bytes (with
the same consumed count and value), an `Error` result is stable under
appending bytes, and the consumed count never exceeds the input length. -/

/-- Property: `Done` is stable under input extension. -/
def ExtDone {α : Type} (p : ByteParser α) : Prop :=
  ∀ s t n v, p s = .done n v → p (s ++ t) = .done n v

/-- Property: `Error` is stable under input extension. -/
def ExtErr {α : Type} (p : ByteParser α) : Prop :=
  ∀ s t, p s = .error → p (s ++ t) = .error

/-- The consumed count is bounded by the input length. -/
def Bnd {α : Type} (p : ByteParser α) : Prop :=
  ∀ s n v, p s = .done n v → n ≤ s.length

/-- The three streaming properties bundled. -/
def PProps {α : Type} (p : ByteParser α) : Prop :=
  ExtDone p ∧ ExtErr p ∧ Bnd p

/-- Combine one parsed `params` step (consumed bytes `c`, raw pairs `kvs`)
with the rest of the loop: exactly one unit of the declared arity. -/
def starStep (c : Nat) (kvs : List (List Nat × List Nat)) :
    PResult (List (List Nat × List Nat)) → PResult ParamMap
  | .done c3 kvs3 => .done (c + c3) (buildMapG (kvs ++ kvs3))
  | .incomplete => .incomplete
  | .error => .error

/-- The raw-pair `params` worker at ample fuel (before map building). -/
def paramsRaw (inp : List Nat) (count : Nat) :
    PResult (List (List Nat × List Nat)) :=
  paramsF (inp.length + 1) inp count

end Ssh

namespace SubmW

/-!
Concrete single-point scenarios used by the witnesses of the CORE B
claims: a tiny environment with one submodule at small-repo path `s`,
expansion path `l/s`, metadata file `l/.x-s`.
-/

open Subm

/-- Witness environment: concrete stores for the scenarios below. -/
def envW : Env where
  gitHashFromMetadataFile := fun c =>
    if c = 1 then .ok [97] else if c = 2 then .ok [98] else .error (.storage 0)
  gitHashFromSubmoduleFile := fun _ c =>
    if c = 5 then .ok [97] else if c = 6 then .ok [99] else .error (.storage 1)
  rootFsnodeFromGitCommit := fun _ h =>
    if h = [97] then .ok 100 else .error (.storage 2)
  loadFsnode := fun _ id =>
    if id = 100 then .ok [([120], .file 7 .regular)] else .error (.storage 3)
  deriveParentRootFsnode := fun _ => .ok 50
  deriveSingle := fun _ _ => .ok 60
  listNonSubmoduleFilesUnder := fun p _ =>
    if p = 7 then .ok [[[109]], [[110]]] else .error (.storage 4)

/-- Witness expansion data: one submodule at path `[115]` backed by repo 9. -/
def smdW : SmExpData where
  largeRepo := 0
  mdMarker := [120]
  submoduleDeps := [([[115]], 9)]

/-- Witness mover: prepend the component `[108]`. -/
def moverW : Path → Except VErr (Option Path) :=
  fun p => .ok (some ([108] :: p))

/-- Witness bonsai touching nothing. -/
def bonsaiW : Bonsai where
  csId := 3
  parents := [7]
  fileChanges := []

/-- The metadata file path of the witness submodule. -/
def mdPathW : Path := [[108], [46, 120, 45, 115]]

/-- Witness bonsai deleting the metadata file and the whole expansion. -/
def bonsaiDelW : Bonsai :=
  { bonsaiW with
    fileChanges :=
      [(mdPathW, .deletion), ([[109]], .deletion), ([[110]], .untrackedDeletion)] }

/-- Witness fold state for the hash-mismatch scenario: the expansion
directory `[119]` matches a `GitSubmodule` file whose hash (from content 6)
differs from the metadata file's (from content 2). -/
def stW : EntryValidationData where
  dirs := []
  files := [([119], (6, .gitSubmodule))]
  mdFiles := [([46, 120, 45, 119], (2, .regular))]
  entries := []

end SubmW

namespace Ssh

/-! ### Primitive stability lemmas -/

theorem pTag_done_inv {t0 s : List Nat} {n : Nat} {v : List Nat}
    (h : pTag t0 s = .done n v) : n = t0.length ∧ v = t0 ∧ t0 <+: s := by
  unfold pTag at h
  split at h
  · next h1 =>
    injection h with h2 h3
    exact ⟨h2.symm, h3.symm, List.isPrefixOf_iff_prefix.mp h1⟩
  · split at h <;> exact absurd h (by simp)

theorem pTag_extDone (t0 : List Nat) : ExtDone (pTag t0) := by
  intro s t n v h
  obtain ⟨hn, hv, hpfx⟩ := pTag_done_inv h
  unfold pTag
  rw [if_pos ( List.isPrefixOf_iff_prefix.mpr (hpfx.trans (List.prefix_append s t)))]
  rw [hn, hv]

theorem pTag_extErr (t0 : List Nat) : ExtErr (pTag t0) := by
  intro s t h
  unfold pTag at h ⊢
  split at h
  · exact absurd h (by simp)
  · split at h
    · exact absurd h (by simp)
    · next h1 h2 =>
      rw [ List.isPrefixOf_iff_prefix] at h1 h2
      rw [if_neg, if_neg]
      · intro h3
        rw [ List.isPrefixOf_iff_prefix] at h3
        exact h2 ((List.prefix_append s t).trans h3)
      · intro h3
        rw [ List.isPrefixOf_iff_prefix] at h3
        rcases Nat.le_total t0.length s.length with hle | hle
        · exact h1 (List.prefix_of_prefix_length_le h3 (List.prefix_append s t) hle)
        · exact h2 (List.prefix_of_prefix_length_le (List.prefix_append s t) h3 hle)

theorem pTag_bnd (t0 : List Nat) : Bnd (pTag t0) := by
  intro s n v h
  obtain ⟨hn, _, hpfx⟩ := pTag_done_inv h
  exact hn ▸ hpfx.length_le

theorem pTag_pprops (t0 : List Nat) : PProps (pTag t0) :=
  ⟨pTag_extDone t0, pTag_extErr t0, pTag_bnd t0⟩

theorem pTake_done_inv {k : Nat} {s : List Nat} {n : Nat} {v : List Nat}
    (h : pTake k s = .done n v) :
    n = k ∧ v = s.take k ∧ k ≤ s.length := by
  unfold pTake at h
  split at h
  · injection h with h1 h2
    exact ⟨h1.symm, h2.symm, by assumption⟩
  · exact absurd h (by simp)

theorem pTake_pprops (k : Nat) : PProps (pTake k) := by
  refine ⟨?_, ?_, ?_⟩
  · intro s t n v h
    obtain ⟨hn, hv, hle⟩ := pTake_done_inv h
    unfold pTake
    rw [if_pos (by simp; omega)]
    rw [hn, hv, List.take_append_of_le_length hle]
  · intro s t h
    unfold pTake at h
    split at h <;> exact absurd h (by simp)
  · intro s n v h
    obtain ⟨hn, _, hle⟩ := pTake_done_inv h
    omega

theorem digitLen_append_some {f : Nat → Bool} {s : List Nat} {k : Nat}
    (h : digitLen f s = some k) (t : List Nat) :
    digitLen f (s ++ t) = some k := by
  induction s generalizing k with
  | nil => simp [digitLen] at h
  | cons b rest ih =>
    simp only [digitLen, List.cons_append, List.append_eq] at h ⊢
    split at h
    · next hb =>
      rw [if_pos hb]
      rcases Option.map_eq_some'.mp h with ⟨k', hk', rfl⟩
      rw [ih hk']
      rfl
    · next hb =>
      rw [if_neg hb]
      exact h

theorem digitLen_le {f : Nat → Bool} {s : List Nat} {k : Nat}
    (h : digitLen f s = some k) : k ≤ s.length := by
  induction s generalizing k with
  | nil => simp [digitLen] at h
  | cons b rest ih =>
    simp only [digitLen] at h
    split at h
    · rcases Option.map_eq_some'.mp h with ⟨k', hk', rfl⟩
      have h2 := ih hk'
      have h3 : (b :: rest).length = rest.length + 1 := rfl
      omega
    · injection h with h1
      simp [← h1]

theorem digit_done_inv {f : Nat → Bool} {s : List Nat} {n : Nat} {v : List Nat}
    (h : digit f s = .done n v) :
    digitLen f s = some n ∧ v = s.take n ∧ n ≠ 0 := by
  unfold digit at h
  split at h
  · exact absurd h (by simp)
  · exact absurd h (by simp)
  · next k hknz hk =>
    injection h with h1 h2
    subst h1
    exact ⟨hk, h2.symm, fun h0 => hknz h0⟩

theorem digit_pprops (f : Nat → Bool) : PProps (digit f) := by
  refine ⟨?_, ?_, ?_⟩
  · intro s t n v h
    obtain ⟨hd, hv, hn⟩ := digit_done_inv h
    have hle := digitLen_le hd
    match n, hn with
    | n + 1, _ =>
      unfold digit
      rw [digitLen_append_some hd]
      show PResult.done (n + 1) ((s ++ t).take (n + 1)) = _
      rw [List.take_append_of_le_length hle, hv]
  · intro s t h
    unfold digit at h ⊢
    split at h
    · exact absurd h (by simp)
    · next hk => rw [digitLen_append_some hk]
    · exact absurd h (by simp)
  · intro s n v h
    obtain ⟨hd, _, _⟩ := digit_done_inv h
    exact digitLen_le hd

theorem identAlphanum_done_inv {s : List Nat} {n : Nat} {v : List Nat}
    (h : identAlphanum s = .done n v) :
    ∃ b rest k, s = b :: rest ∧ isAlphaUnd b = true ∧
      digitLen isAlnumUnd rest = some k ∧ n = k + 1 ∧ v = s.take (k + 1) := by
  cases s with
  | nil => simp [identAlphanum] at h
  | cons b rest =>
    simp only [identAlphanum] at h
    split at h
    · next hb =>
      split at h
      · exact absurd h (by simp)
      · next k hk =>
        injection h with h1 h2
        exact ⟨b, rest, k, rfl, hb, hk, h1.symm, h2.symm⟩
    · exact absurd h (by simp)

theorem identAlphanum_pprops : PProps identAlphanum := by
  refine ⟨?_, ?_, ?_⟩
  · intro s t n v h
    obtain ⟨b, rest, k, rfl, hb, hk, rfl, rfl⟩ := identAlphanum_done_inv h
    show identAlphanum (b :: (rest ++ t)) = _
    simp only [identAlphanum]
    rw [if_pos hb, digitLen_append_some hk]
    have hle := digitLen_le hk
    show PResult.done (k + 1) ((b :: (rest ++ t)).take (k + 1)) = _
    rw [List.take_succ_cons, List.take_succ_cons,
      List.take_append_of_le_length hle]
  · intro s t h
    cases s with
    | nil => simp [identAlphanum] at h
    | cons b rest =>
      simp only [identAlphanum] at h
      show identAlphanum (b :: (rest ++ t)) = _
      simp only [identAlphanum]
      split at h
      · split at h <;> exact absurd h (by simp)
      · next hb => rw [if_neg hb]
  · intro s n v h
    obtain ⟨b, rest, k, rfl, _, hk, rfl, _⟩ := identAlphanum_done_inv h
    have h2 := digitLen_le hk
    have h3 : (b :: rest).length = rest.length + 1 := rfl
    omega

theorem identAlphanum_pos {s : List Nat} {n : Nat} {v : List Nat}
    (h : identAlphanum s = .done n v) : 1 ≤ n := by
  obtain ⟨_, _, k, _, _, _, rfl, _⟩ := identAlphanum_done_inv h
  omega

/-! ### Combinator closure lemmas -/

theorem pprops_pMap {α β : Type} {p : ByteParser α} (f : α → β)
    (hp : PProps p) : PProps (pMap p f) := by
  obtain ⟨hD, hE, hB⟩ := hp
  refine ⟨?_, ?_, ?_⟩
  · intro s t n v h
    unfold pMap at h ⊢
    split at h
    · next m w hps =>
      rw [hD s t m w hps]
      exact h
    all_goals exact absurd h (by simp)
  · intro s t h
    unfold pMap at h ⊢
    split at h
    · exact absurd h (by simp)
    · exact absurd h (by simp)
    · next hps => rw [hE s t hps]
  · intro s n v h
    unfold pMap at h
    split at h
    · next m w hps =>
      injection h with h1 _
      exact h1 ▸ hB s m w hps
    all_goals exact absurd h (by simp)

theorem pprops_pMapRes {α β : Type} {p : ByteParser α} (f : α → Option β)
    (hp : PProps p) : PProps (pMapRes p f) := by
  obtain ⟨hD, hE, hB⟩ := hp
  refine ⟨?_, ?_, ?_⟩
  · intro s t n v h
    unfold pMapRes at h ⊢
    split at h
    · next m w hps =>
      rw [hD s t m w hps]
      exact h
    all_goals exact absurd h (by simp)
  · intro s t h
    unfold pMapRes at h ⊢
    split at h
    · next m w hps =>
      rw [hD s t m w hps]
      exact h
    · exact absurd h (by simp)
    · next hps => rw [hE s t hps]
  · intro s n v h
    unfold pMapRes at h
    split at h
    · next m w hps =>
      split at h
      · injection h with h1 _
        exact h1 ▸ hB s m w hps
      · exact absurd h (by simp)
    all_goals exact absurd h (by simp)

theorem pprops_pThen {α β : Type} {p : ByteParser α} {q : α → ByteParser β}
    (hp : PProps p) (hq : ∀ v, PProps (q v)) : PProps (pThen p q) := by
  obtain ⟨hD, hE, hB⟩ := hp
  have key : ∀ s (t : List Nat) n1 (v1 : α), p s = .done n1 v1 →
      (s ++ t).drop n1 = s.drop n1 ++ t := by
    intro s t n1 v1 h
    exact List.drop_append_of_le_length (hB s n1 v1 h)
  refine ⟨?_, ?_, ?_⟩
  · intro s t n v h
    unfold pThen at h ⊢
    split at h
    · next n1 v1 hps =>
      rw [hD s t n1 v1 hps]
      show (match q v1 ((s ++ t).drop n1) with
            | .done m w => PResult.done (n1 + m) w
            | .incomplete => PResult.incomplete
            | .error => PResult.error) = _
      rw [key s t n1 v1 hps]
      split at h
      · next m w hq1 =>
        rw [(hq v1).1 _ t m w hq1]
        exact h
      · exact absurd h (by simp)
      · exact absurd h (by simp)
    all_goals exact absurd h (by simp)
  · intro s t h
    unfold pThen at h ⊢
    split at h
    · next n1 v1 hps =>
      rw [hD s t n1 v1 hps]
      show (match q v1 ((s ++ t).drop n1) with
            | .done m w => PResult.done (n1 + m) w
            | .incomplete => PResult.incomplete
            | .error => PResult.error) = _
      rw [key s t n1 v1 hps]
      split at h
      · exact absurd h (by simp)
      · exact absurd h (by simp)
      · next hq1 => rw [(hq v1).2.1 _ t hq1]
    · exact absurd h (by simp)
    · next hps => rw [hE s t hps]
  · intro s n v h
    unfold pThen at h
    split at h
    · next n1 v1 hps =>
      split at h
      · next m w hq1 =>
        injection h with h1 _
        have hb1 := hB s n1 v1 hps
        have hb2 := (hq v1).2.2 _ m w hq1
        rw [List.length_drop] at hb2
        omega
      all_goals exact absurd h (by simp)
    all_goals exact absurd h (by simp)

theorem integer_pprops : PProps integer :=
  pprops_pMapRes _ (digit_pprops isDigitB)

theorem pThen_done_inv {α β : Type} {p : ByteParser α} {q : α → ByteParser β}
    {s : List Nat} {n : Nat} {v : β} (h : pThen p q s = .done n v) :
    ∃ n1 v1 m, p s = .done n1 v1 ∧ q v1 (s.drop n1) = .done m v ∧ n = n1 + m := by
  unfold pThen at h
  split at h
  · next n1 v1 hps =>
    split at h
    · next m w hq1 =>
      injection h with h1 h2
      exact ⟨n1, v1, m, hps, h2 ▸ hq1, h1.symm⟩
    · exact absurd h (by simp)
    · exact absurd h (by simp)
  · exact absurd h (by simp)
  · exact absurd h (by simp)

theorem starHeader_pprops : PProps starHeader :=
  pprops_pThen (pTag_pprops _)
    (fun _ => pprops_pThen integer_pprops
      (fun _ => pprops_pMap _ (pTag_pprops _)))

theorem starHeader_pos {s : List Nat} {n k : Nat}
    (h : starHeader s = .done n k) : 1 ≤ n := by
  obtain ⟨n1, v1, m, hps, _, rfl⟩ := pThen_done_inv h
  obtain ⟨h1, _, _⟩ := pTag_done_inv hps
  have h2 : n1 = 2 := by simp [h1]
  omega

theorem paramKV_pprops : PProps paramKV :=
  pprops_pThen identAlphanum_pprops
    (fun _ => pprops_pThen (pTag_pprops _)
      (fun _ => pprops_pThen integer_pprops
        (fun len => pprops_pThen (pTag_pprops _)
          (fun _ => pprops_pMap _ (pTake_pprops len)))))

theorem paramKV_pos {s : List Nat} {n : Nat} {kv : List Nat × List Nat}
    (h : paramKV s = .done n kv) : 1 ≤ n := by
  obtain ⟨n1, v1, m, hps, _, rfl⟩ := pThen_done_inv h
  have := identAlphanum_pos hps
  omega

/-! ### `paramsF`: bound, fuel-irrelevance and extension stability -/

theorem paramsF_bnd : ∀ (fuel : Nat) (inp : List Nat) (count n : Nat)
    (kvs : List (List Nat × List Nat)),
    paramsF fuel inp count = .done n kvs → n ≤ inp.length := by
  intro fuel
  induction fuel with
  | zero => intro inp count n kvs h; simp [paramsF] at h
  | succ fuel ih =>
    intro inp count n kvs h
    match count with
    | 0 =>
      simp only [paramsF] at h
      injection h with h1 _
      omega
    | count + 1 =>
      simp only [paramsF] at h
      split at h
      · next c K hs =>
        have hcb := starHeader_pprops.2.2 _ _ _ hs
        split at h
        · next c2 kvs2 h2 =>
          have hb2 := ih _ _ _ _ h2
          rw [List.length_drop] at hb2
          split at h
          · next c3 kvs3 h3 =>
            have hb3 := ih _ _ _ _ h3
            rw [List.length_drop] at hb3
            injection h with h1 _
            omega
          · exact absurd h (by simp)
          · exact absurd h (by simp)
        · exact absurd h (by simp)
        · split at h
          · next c' kv hk =>
            have hkb := paramKV_pprops.2.2 _ _ _ hk
            split at h
            · next c3 kvs3 h3 =>
              have hb3 := ih _ _ _ _ h3
              rw [List.length_drop] at hb3
              injection h with h1 _
              omega
            · exact absurd h (by simp)
            · exact absurd h (by simp)
          · exact absurd h (by simp)
          · exact absurd h (by simp)
      · exact absurd h (by simp)
      · split at h
        · next c' kv hk =>
          have hkb := paramKV_pprops.2.2 _ _ _ hk
          split at h
          · next c3 kvs3 h3 =>
            have hb3 := ih _ _ _ _ h3
            rw [List.length_drop] at hb3
            injection h with h1 _
            omega
          · exact absurd h (by simp)
          · exact absurd h (by simp)
        · exact absurd h (by simp)
        · exact absurd h (by simp)

theorem paramsF_fuelEq : ∀ (f1 f2 : Nat) (inp : List Nat) (count : Nat),
    inp.length < f1 → inp.length < f2 →
    paramsF f1 inp count = paramsF f2 inp count := by
  intro f1
  induction f1 with
  | zero => intro f2 inp count h1 h2; omega
  | succ f1 ih =>
    intro f2 inp count h1 h2
    match f2 with
    | 0 => omega
    | f2 + 1 =>
      match count with
      | 0 => simp only [paramsF]
      | count + 1 =>
        simp only [paramsF]
        cases hs : starHeader inp with
        | done c K =>
          have hcb := starHeader_pprops.2.2 _ _ _ hs
          have hc1 := starHeader_pos hs
          simp only []
          have key1 : paramsF f1 (inp.drop c) K = paramsF f2 (inp.drop c) K := by
            apply ih <;> (rw [List.length_drop]; omega)
          rw [key1]
          cases h2' : paramsF f2 (inp.drop c) K with
          | done c2 kvs2 =>
            simp only []
            have hb2 := paramsF_bnd _ _ _ _ _ h2'
            rw [List.length_drop] at hb2
            have key2 : paramsF f1 (inp.drop (c + c2)) count =
                paramsF f2 (inp.drop (c + c2)) count := by
              apply ih <;> (rw [List.length_drop]; omega)
            rw [key2]
          | incomplete => rfl
          | error =>
            simp only []
            cases hk : paramKV inp with
            | done c' kv =>
              simp only []
              have hk1 := paramKV_pos hk
              have hkb := paramKV_pprops.2.2 _ _ _ hk
              have key3 : paramsF f1 (inp.drop c') count =
                  paramsF f2 (inp.drop c') count := by
                apply ih <;> (rw [List.length_drop]; omega)
              rw [key3]
            | incomplete => rfl
            | error => rfl
        | incomplete => rfl
        | error =>
          simp only []
          cases hk : paramKV inp with
          | done c' kv =>
            simp only []
            have hk1 := paramKV_pos hk
            have hkb := paramKV_pprops.2.2 _ _ _ hk
            have key3 : paramsF f1 (inp.drop c') count =
                paramsF f2 (inp.drop c') count := by
              apply ih <;> (rw [List.length_drop]; omega)
            rw [key3]
          | incomplete => rfl
          | error => rfl

theorem starHeader_error_of_paramKV_done {s : List Nat} {n : Nat}
    {kv : List Nat × List Nat} (h : paramKV s = .done n kv) :
    starHeader s = .error := by
  obtain ⟨n1, v1, m, hps, _, _⟩ := pThen_done_inv h
  obtain ⟨b, rest, k, rfl, hb, _, _, _⟩ := identAlphanum_done_inv hps
  have hb42 : b ≠ 42 := by
    intro hbe
    rw [hbe] at hb
    simp [isAlphaUnd] at hb
  have htag : pTag [42, 32] (b :: rest) = .error := by
    unfold pTag
    rw [if_neg, if_neg]
    · intro hpf
      rw [ List.isPrefixOf_iff_prefix, List.cons_prefix_cons] at hpf
      exact hb42 hpf.1
    · intro hpf
      rw [ List.isPrefixOf_iff_prefix, List.cons_prefix_cons] at hpf
      exact hb42 hpf.1.symm
  unfold starHeader pThen
  rw [htag]

/-! ### Digit-run shape lemmas (for the `integer` claim) -/

theorem digitLen_none_of_all {f : Nat → Bool} {s : List Nat}
    (h : ∀ b ∈ s, f b = true) : digitLen f s = none := by
  induction s with
  | nil => rfl
  | cons b rest ih =>
    simp only [digitLen]
    rw [if_pos (h b (by simp)), ih (fun x hx => h x (by simp [hx]))]
    rfl

theorem digitLen_split {f : Nat → Bool} {ds : List Nat} {b : Nat}
    (t : List Nat) (hds : ∀ d ∈ ds, f d = true) (hb : f b = false) :
    digitLen f (ds ++ b :: t) = some ds.length := by
  induction ds with
  | nil =>
    simp only [List.nil_append, digitLen]
    rw [if_neg (by simp [hb])]
    rfl
  | cons d ds ih =>
    simp only [List.cons_append, digitLen, List.append_eq]
    rw [if_pos (hds d (by simp)), ih (fun x hx => hds x (by simp [hx]))]
    rfl

end Ssh

namespace Subm

/-! ### Validator helper lemmas -/

/-- When all parents' listings succeed, the flattened lazy `try_all`
computes exactly: every listed file of every parent is deleted in the
bonsai. -/
theorem checkParentsDeleted_char (env : Env) (fcs : List (Path × FileChange))
    (synced : Path) :
    ∀ (parents : List Nat) (fl : Nat → List Path),
    (∀ p ∈ parents, env.listNonSubmoduleFilesUnder p synced = .ok (fl p)) →
    checkParentsDeleted env fcs synced parents =
      .ok (parents.all (fun p => (fl p).all (fcRemovedAt fcs))) := by
  intro parents fl
  induction parents with
  | nil =>
    intro _
    rfl
  | cons p ps ih =>
    intro hor
    simp only [checkParentsDeleted]
    rw [hor p (by simp)]
    simp only []
    by_cases hall : (fl p).all (fcRemovedAt fcs) = true
    · rw [if_pos hall, ih (fun q hq => hor q (by simp [hq]))]
      rw [List.all_cons, hall, Bool.true_and]
    · rw [if_neg hall]
      rw [List.all_cons, Bool.eq_false_iff.mpr hall, Bool.false_and]

/-- Every success path of `ensure_submodule_expansion_deletion` returns the
bonsai it was given. -/
theorem ensureDeletion_ok_eq {env : Env} {b : Bonsai} {synced : Path}
    {b' : Bonsai}
    (h : ensureSubmoduleExpansionDeletion env b synced = .ok b') : b' = b := by
  simp only [ensureSubmoduleExpansionDeletion] at h
  split at h
  · injection h with h1
    exact h1.symm
  · split at h
    · exact absurd h (by simp)
    · injection h with h1
      exact h1.symm
    · exact absurd h (by simp)

/-- Every success path of the changed-metadata validation returns the
bonsai it was given. -/
theorem validateChangedMetadata_ok_eq {fuel : Nat} {env : Env}
    {smd : SmExpData} {b : Bonsai} {smPath : Path} {smRepo : Nat}
    {synced : Path} {cid : Nat} {b' : Bonsai}
    (h : validateChangedMetadata fuel env smd b smPath smRepo synced cid =
      .ok b') : b' = b := by
  simp only [validateChangedMetadata] at h
  split at h
  · exact absurd h (by simp)
  · split at h
    · exact absurd h (by simp)
    · split at h
      · exact absurd h (by simp)
      · split at h
        · injection h with h1
          exact h1.symm
        · split at h
          · exact absurd h (by simp)
          · injection h with h1
            exact h1.symm

/-- Every success path of `validate_submodule_expansion` returns the
bonsai it was given. -/
theorem validateSubmoduleExpansion_ok_eq {fuel : Nat} {env : Env}
    {smd : SmExpData} {b : Bonsai} {smPath : Path} {smRepo : Nat}
    {mover : Path → Except VErr (Option Path)} {b' : Bonsai}
    (h : validateSubmoduleExpansion fuel env smd b smPath smRepo mover =
      .ok b') : b' = b := by
  simp only [validateSubmoduleExpansion] at h
  split at h
  · exact absurd h (by simp)
  · exact absurd h (by simp)
  · split at h
    · split at h
      · exact absurd h (by simp)
      · injection h with h1
        exact h1.symm
    · split at h
      · exact ensureDeletion_ok_eq h
      · exact ensureDeletion_ok_eq h
      · exact validateChangedMetadata_ok_eq h
      · exact validateChangedMetadata_ok_eq h

/-- The sequential fold threads the bonsai through unchanged on success. -/
theorem validateAllFold_ok_eq {fuel : Nat} {env : Env} {smd : SmExpData}
    {mover : Path → Except VErr (Option Path)} :
    ∀ (deps : List (Path × Nat)) (b b' : Bonsai),
    validateAllFold fuel env smd mover deps b = .ok b' → b' = b := by
  intro deps
  induction deps with
  | nil =>
    intro b b' h
    injection h with h1
    exact h1.symm
  | cons pr rest ih =>
    intro b b' h
    simp only [validateAllFold] at h
    split at h
    · exact absurd h (by simp)
    · next b2 hb2 =>
      exact (ih b2 b' h).trans (validateSubmoduleExpansion_ok_eq hb2)

end Subm


/-!
## Claim theorems

One theorem per claim of the specification review, with witnesses for the
theorems that carry hypotheses.  Validity of an encoding is expressed
through the embedded parser itself: a byte string `E` is a valid complete
encoding exactly when the driver's top-level alternative consumes it
entirely (`topAlt E = .done E.length r`), which is the definition the
command table of the source induces.
-/

/-- C9: error atomicity of the driver.  On every buffer on which
`parse_request` returns `Err`, the buffer is left exactly as it was; bytes
are consumed only when `Ok(Some request)` is returned. -/
theorem c9_error_atomicity :
    ∀ buf : List Nat,
      (∀ e, (Ssh.parseRequest buf).1 = .error e →
        (Ssh.parseRequest buf).2 = buf) ∧
      ((Ssh.parseRequest buf).2 ≠ buf →
        ∃ r, (Ssh.parseRequest buf).1 = .ok (some r)) := by
  intro buf
  unfold Ssh.parseRequest
  cases h : Ssh.topAlt buf with
  | done n v => exact ⟨fun e he => by simp at he, fun _ => ⟨v, rfl⟩⟩
  | incomplete => exact ⟨fun e _ => rfl, fun hne => absurd rfl hne⟩
  | error => exact ⟨fun e _ => rfl, fun hne => absurd rfl hne⟩

/-- Witness for C9 at the unparseable buffer `x`: the driver errors and
the buffer is untouched. -/
theorem c9_witness :
    (Ssh.parseRequest [120]).1 = .error [120] ∧
    (Ssh.parseRequest [120]).2 = [120] :=
  ⟨by decide, (c9_error_atomicity [120]).1 [120] (by decide)⟩

/-- C6: arity accounting of the keyed parameter decoder.  A `*` block
(`"* K\n"` header consuming `c` bytes with count `K`, followed by its `K`
keyed parameters consuming `c2` bytes) contributes exactly one unit toward
the declared arity `N + 1`, regardless of `K`: the loop continues with
arity `N` after the whole block; and a plain keyed parameter likewise
contributes exactly one unit. -/
theorem c6_star_param_arity :
    (∀ (inp : List Nat) (N c K c2 : Nat) (kvs : List (List Nat × List Nat)),
      Ssh.starHeader inp = .done c K →
      Ssh.paramsRaw (inp.drop c) K = .done c2 kvs →
      Ssh.params inp (N + 1) =
        Ssh.starStep (c + c2) kvs (Ssh.paramsRaw (inp.drop (c + c2)) N)) ∧
    (∀ (inp : List Nat) (N c : Nat) (kv : List Nat × List Nat),
      Ssh.paramKV inp = .done c kv →
      Ssh.params inp (N + 1) =
        Ssh.starStep c [kv] (Ssh.paramsRaw (inp.drop c) N)) := by
  constructor
  · intro inp N c K c2 kvs hs hp
    have hc1 := Ssh.starHeader_pos hs
    have hcb := Ssh.starHeader_pprops.2.2 _ _ _ hs
    have hb2 := Ssh.paramsF_bnd _ _ _ _ _ hp
    rw [List.length_drop] at hb2
    simp only [Ssh.params, Ssh.paramsF]
    rw [hs]
    simp only []
    have hnested : Ssh.paramsF inp.length (inp.drop c) K = .done c2 kvs := by
      rw [Ssh.paramsF_fuelEq inp.length ((inp.drop c).length + 1) (inp.drop c) K
        (by rw [List.length_drop]; omega) (by omega)]
      exact hp
    rw [hnested]
    simp only []
    have hcont : Ssh.paramsF inp.length (inp.drop (c + c2)) N =
        Ssh.paramsRaw (inp.drop (c + c2)) N := by
      unfold Ssh.paramsRaw
      apply Ssh.paramsF_fuelEq
      · rw [List.length_drop]
        omega
      · omega
    rw [hcont]
    cases hr : Ssh.paramsRaw (inp.drop (c + c2)) N with
    | done c3 kvs3 => rfl
    | incomplete => rfl
    | error => rfl
  · intro inp N c kv hk
    have hserr := Ssh.starHeader_error_of_paramKV_done hk
    have hc1 := Ssh.paramKV_pos hk
    have hcb := Ssh.paramKV_pprops.2.2 _ _ _ hk
    simp only [Ssh.params, Ssh.paramsF]
    rw [hserr]
    simp only []
    rw [hk]
    simp only []
    have hcont : Ssh.paramsF inp.length (inp.drop c) N =
        Ssh.paramsRaw (inp.drop c) N := by
      unfold Ssh.paramsRaw
      apply Ssh.paramsF_fuelEq
      · rw [List.length_drop]
        omega
      · omega
    rw [hcont]
    cases hr : Ssh.paramsRaw (inp.drop c) N with
    | done c3 kvs3 => rfl
    | incomplete => rfl
    | error => rfl

/-- Witness for C6: the star block `* 2\nfoo 0\nplugh 0\n` counts as one
unit of arity 2 (leaving one unit for `bar 0\n`), and the plain parameter
`bar 12\nhello world!` counts as one unit of arity 1. -/
theorem c6_witness :
    Ssh.params
      [42, 32, 50, 10, 102, 111, 111, 32, 48, 10, 112, 108, 117, 103, 104,
       32, 48, 10, 98, 97, 114, 32, 48, 10] 2 =
      Ssh.starStep 18
        [([102, 111, 111], []), ([112, 108, 117, 103, 104], [])]
        (Ssh.paramsRaw
          ([42, 32, 50, 10, 102, 111, 111, 32, 48, 10, 112, 108, 117, 103,
            104, 32, 48, 10, 98, 97, 114, 32, 48, 10].drop 18) 1) ∧
    Ssh.params
      [98, 97, 114, 32, 49, 50, 10, 104, 101, 108, 108, 111, 32, 119, 111,
       114, 108, 100, 33] 1 =
      Ssh.starStep 19
        [([98, 97, 114],
          [104, 101, 108, 108, 111, 32, 119, 111, 114, 108, 100, 33])]
        (Ssh.paramsRaw
          ([98, 97, 114, 32, 49, 50, 10, 104, 101, 108, 108, 111, 32, 119,
            111, 114, 108, 100, 33].drop 19) 0) :=
  ⟨c6_star_param_arity.1 _ 1 4 2 14
      [([102, 111, 111], []), ([112, 108, 117, 103, 104], [])]
      (by decide) (by decide),
   c6_star_param_arity.2 _ 0 19
      ([98, 97, 114],
       [104, 101, 108, 108, 111, 32, 119, 111, 114, 108, 100, 33])
      (by decide)⟩

/-- Counterexample for C8 as stated: the claim asserts that `integer`
returns `Error` on every input whose digit prefix is empty, "in particular
the empty input", and `Done` on every digit run followed by a non-digit.
Both fail: the empty input yields `Incomplete` (the digit run reached the
end of input), and a 20-digit run whose value overflows `usize` yields
`Error` from `usize::from_str` even though a non-digit follows. -/
theorem c8_counterexample :
    Ssh.integer [] = .incomplete ∧
    Ssh.integer [49, 56, 52, 52, 54, 55, 52, 52, 48, 55, 51, 55, 48, 57,
      53, 53, 49, 54, 49, 54, 120] = .error :=
  ⟨by decide, by decide⟩

/-- C8 (amended): `integer` returns `Done(rest, value)` for every input
beginning with a nonempty ASCII digit run, followed by a non-digit byte,
whose value fits in `usize`; it returns `Incomplete` whenever the digit
run reaches the end of the input — including the empty input; and it
returns `Error` exactly when the first byte is a non-digit (and, per the
counterexample, on `usize` overflow). -/
theorem c8_integer_amended :
    (∀ (ds : List Nat) (b : Nat) (t : List Nat),
      ds ≠ [] → (∀ d ∈ ds, Ssh.isDigitB d = true) → Ssh.isDigitB b = false →
      Ssh.natOfDigits ds < Ssh.usizeBound →
      Ssh.integer (ds ++ b :: t) = .done ds.length (Ssh.natOfDigits ds)) ∧
    (∀ s : List Nat, (∀ d ∈ s, Ssh.isDigitB d = true) →
      Ssh.integer s = .incomplete) ∧
    (∀ (b : Nat) (t : List Nat), Ssh.isDigitB b = false →
      Ssh.integer (b :: t) = .error) := by
  refine ⟨?_, ?_, ?_⟩
  · intro ds b t hne hds hb hlt
    have hdig : Ssh.digit Ssh.isDigitB (ds ++ b :: t) = .done ds.length ds := by
      unfold Ssh.digit
      rw [Ssh.digitLen_split t hds hb]
      obtain ⟨m, hm⟩ : ∃ m, ds.length = m + 1 := by
        cases ds with
        | nil => exact absurd rfl hne
        | cons x xs => exact ⟨xs.length, rfl⟩
      rw [hm]
      show Ssh.PResult.done (m + 1) ((ds ++ b :: t).take (m + 1)) = _
      rw [← hm, List.take_left]
    unfold Ssh.integer Ssh.pMapRes
    rw [hdig]
    simp only []
    rw [if_pos hlt]
  · intro s hs
    unfold Ssh.integer Ssh.pMapRes Ssh.digit
    rw [Ssh.digitLen_none_of_all hs]
  · intro b t hb
    unfold Ssh.integer Ssh.pMapRes Ssh.digit
    simp only [Ssh.digitLen]
    rw [if_neg (by simp [hb])]

/-- Witness for C8 (amended) at `1234 `, `1234` and `x`. -/
theorem c8_witness :
    Ssh.integer ([49, 50, 51, 52] ++ 32 :: []) =
      .done [49, 50, 51, 52].length (Ssh.natOfDigits [49, 50, 51, 52]) ∧
    Ssh.integer [49, 50, 51, 52] = .incomplete ∧
    Ssh.integer (120 :: []) = .error :=
  ⟨c8_integer_amended.1 [49, 50, 51, 52] 32 [] (by decide) (by decide)
      (by decide) (by decide),
   c8_integer_amended.2.1 [49, 50, 51, 52] (by decide),
   c8_integer_amended.2.2 120 [] (by decide)⟩


/-- C3: for a declared submodule whose metadata file has no entry in the
commit's file-changes map, `validate_submodule_expansion` fails with the
I1-style error when some file-change path is prefixed by the submodule's
translated (large-repo) expansion path, and otherwise succeeds returning
the input commit unchanged. -/
theorem c3_missing_metadata_entry :
    ∀ (fuel : Nat) (env : Subm.Env) (smd : Subm.SmExpData)
      (bonsai : Subm.Bonsai) (smPath : Subm.Path) (smRepo : Nat)
      (mover : Subm.Path → Except Subm.VErr (Option Subm.Path))
      (synced : Subm.Path),
      mover smPath = .ok (some synced) →
      List.lookup (Subm.metadataFilePath smd.mdMarker synced)
        bonsai.fileChanges = none →
      Subm.validateSubmoduleExpansion fuel env smd bonsai smPath smRepo
          mover =
        (if bonsai.fileChanges.any
            (fun pc => Subm.isPathPrefixOf synced pc.1) then
          .error (.expansionChangedWithoutMetadataUpdate smPath
            (Subm.metadataFilePath smd.mdMarker synced))
        else .ok bonsai) := by
  intro fuel env smd bonsai smPath smRepo mover synced hmov hlk
  simp only [Subm.validateSubmoduleExpansion]
  rw [hmov]
  simp only []
  rw [hlk]

/-- Witness for C3: the single-submodule scenario with no file changes at
all takes the success branch and returns the bonsai unchanged. -/
theorem c3_witness :
    Subm.validateSubmoduleExpansion 1 SubmW.envW SubmW.smdW SubmW.bonsaiW
      [[115]] 9 SubmW.moverW = .ok SubmW.bonsaiW := by
  have h := c3_missing_metadata_entry 1 SubmW.envW SubmW.smdW SubmW.bonsaiW
    [[115]] 9 SubmW.moverW [[108], [115]] (by decide) (by decide)
  rw [h]
  decide

/-- C4: deletion consistency.  When the metadata file is deleted: if the
expansion root path has a content change (anything other than
`Deletion`/`UntrackedDeletion`) in the same commit, validation accepts
(implicit deletion); otherwise — given the parents' listings — validation
succeeds iff every non-`GitSubmodule` file under the expansion path in
each parent has a deletion entry in this commit, and fails otherwise. -/
theorem c4_deletion_consistency :
    (∀ (env : Subm.Env) (bonsai : Subm.Bonsai) (synced : Subm.Path),
      Subm.implicitlyDeleted bonsai.fileChanges synced = true →
      Subm.ensureSubmoduleExpansionDeletion env bonsai synced =
        .ok bonsai) ∧
    (∀ (env : Subm.Env) (bonsai : Subm.Bonsai) (synced : Subm.Path)
      (fl : Nat → List Subm.Path),
      Subm.implicitlyDeleted bonsai.fileChanges synced = false →
      (∀ p ∈ bonsai.parents,
        env.listNonSubmoduleFilesUnder p synced = .ok (fl p)) →
      Subm.ensureSubmoduleExpansionDeletion env bonsai synced =
        (if bonsai.parents.all
            (fun p => (fl p).all (Subm.fcRemovedAt bonsai.fileChanges)) then
          .ok bonsai
        else .error .metadataDeletedExpansionNot)) := by
  constructor
  · intro env bonsai synced himpl
    simp only [Subm.ensureSubmoduleExpansionDeletion]
    rw [if_pos himpl]
  · intro env bonsai synced fl himpl hor
    simp only [Subm.ensureSubmoduleExpansionDeletion]
    rw [if_neg (by simp [himpl])]
    rw [Subm.checkParentsDeleted_char env bonsai.fileChanges synced
      bonsai.parents fl hor]
    by_cases hall : bonsai.parents.all
        (fun p => (fl p).all (Subm.fcRemovedAt bonsai.fileChanges)) = true
    · rw [hall]
      simp
    · rw [Bool.eq_false_iff.mpr hall]
      simp

/-- Witness for C4: the metadata file is deleted, and both files listed
under the expansion in the parent are deleted in the bonsai, so the check
accepts. -/
theorem c4_witness :
    Subm.ensureSubmoduleExpansionDeletion SubmW.envW SubmW.bonsaiDelW
      [[108], [115]] = .ok SubmW.bonsaiDelW := by
  have h := c4_deletion_consistency.2 SubmW.envW SubmW.bonsaiDelW
    [[108], [115]] (fun _ => [[[109]], [[110]]]) (by decide)
    (by
      intro p hp
      have hp7 : p = 7 := by
        have h2 : p ∈ [7] := hp
        simpa using h2
      rw [hp7]
      decide)
  rw [h]
  decide

/-- C5: recursive-submodule hash check.  In the tree-diff step validating
one expansion directory against the submodule manifest: (i) when the git
hash stored in the inner metadata file differs from the content hash of
the outer sub-repo's `GitSubmodule` file at the same path, the step fails
with the `assert_eq!` panic error; (ii) when the two hashes are equal the
step succeeds and queues the recursive diff; (iii) a failing step aborts
the sequential fold with that error; and (iv) a failing fold aborts the
whole working-copy validation with that error — so the failure is
surfaced to the caller, never swallowed. -/
theorem c5_recursive_hash_check :
    (∀ (env : Subm.Env) (smd : Subm.SmExpData) (smRepo : Nat)
      (adjustedDeps : List (Subm.Path × Nat)) (st : Subm.EntryValidationData)
      (expPath : Subm.El) (expDirId cid mdCid : Nat) (mdFt : Subm.FileType)
      (h1 h2 : List Nat),
      List.lookup expPath st.dirs = none →
      List.lookup expPath st.files = some (cid, .gitSubmodule) →
      List.lookup (Subm.metadataBasename smd.mdMarker expPath) st.mdFiles =
        some (mdCid, mdFt) →
      env.gitHashFromMetadataFile mdCid = .ok h1 →
      env.gitHashFromSubmoduleFile smRepo cid = .ok h2 →
      h1 ≠ h2 →
      Subm.validateExpDirectory env smd smRepo adjustedDeps st expPath
        expDirId = .error (.panicHashMismatch h1 h2)) ∧
    (∀ (env : Subm.Env) (smd : Subm.SmExpData) (smRepo : Nat)
      (adjustedDeps : List (Subm.Path × Nat)) (st : Subm.EntryValidationData)
      (expPath : Subm.El) (expDirId cid mdCid : Nat) (mdFt : Subm.FileType)
      (h : List Nat) (recRepo rid : Nat),
      List.lookup expPath st.dirs = none →
      List.lookup expPath st.files = some (cid, .gitSubmodule) →
      List.lookup (Subm.metadataBasename smd.mdMarker expPath) st.mdFiles =
        some (mdCid, mdFt) →
      env.gitHashFromMetadataFile mdCid = .ok h →
      env.gitHashFromSubmoduleFile smRepo cid = .ok h →
      List.lookup ([expPath] : Subm.Path) adjustedDeps = some recRepo →
      env.rootFsnodeFromGitCommit recRepo h = .ok rid →
      Subm.validateExpDirectory env smd smRepo adjustedDeps st expPath
        expDirId =
        .ok ⟨st.dirs, Subm.removeKey st.files expPath,
          Subm.removeKey st.mdFiles
            (Subm.metadataBasename smd.mdMarker expPath),
          st.entries ++ [⟨adjustedDeps.filterMap (fun pr =>
            (Subm.removePrefixComponent pr.1 [expPath]).map
              (fun rel => (rel, pr.2))),
            recRepo, expDirId, rid⟩]⟩) ∧
    (∀ (env : Subm.Env) (smd : Subm.SmExpData) (smRepo : Nat)
      (deps : List (Subm.Path × Nat)) (st : Subm.EntryValidationData)
      (p : Subm.El) (id : Nat) (rest : List (Subm.El × Nat)) (e : Subm.VErr),
      Subm.validateExpDirectory env smd smRepo deps st p id = .error e →
      Subm.validateFoldEntries env smd smRepo deps st ((p, id) :: rest) =
        .error e) ∧
    (∀ (fuel : Nat) (env : Subm.Env) (smd : Subm.SmExpData)
      (deps : List (Subm.Path × Nat)) (smRepo expId subId : Nat)
      (sf ef : Subm.Fsnode) (smDirs : List (Subm.El × Nat))
      (smFiles mdFiles : List (Subm.El × (Nat × Subm.FileType)))
      (expDirs : List (Subm.El × Nat)) (e : Subm.VErr),
      env.loadFsnode smRepo subId = .ok sf →
      env.loadFsnode smd.largeRepo expId = .ok ef →
      Subm.partitionSubOnly
        (ef.filter (fun x => !(sf.any (fun y => decide (y = x)))))
        (sf.filter (fun x => !(ef.any (fun y => decide (y = x))))) =
        .ok (smDirs, smFiles) →
      Subm.collectMdFiles
        ((ef.filter (fun x => !(sf.any (fun y => decide (y = x))))).partition
          (fun pe => Subm.containsKeyEl smDirs pe.1 ||
            Subm.containsKeyEl smFiles pe.1)).2 = .ok mdFiles →
      Subm.collectExpDirs
        ((ef.filter (fun x => !(sf.any (fun y => decide (y = x))))).partition
          (fun pe => Subm.containsKeyEl smDirs pe.1 ||
            Subm.containsKeyEl smFiles pe.1)).1 = .ok expDirs →
      Subm.validateFoldEntries env smd smRepo deps
        ⟨smDirs, smFiles, mdFiles, []⟩ expDirs = .error e →
      Subm.validateWorkingCopyF env smd (fuel + 1) deps smRepo expId subId =
        .error e) := by
  refine ⟨?_, ?_, ?_, ?_⟩
  · intro env smd smRepo adjustedDeps st expPath expDirId cid mdCid mdFt
      h1 h2 hdirs hfiles hmd hmeta hsubf hne
    simp only [Subm.validateExpDirectory, hdirs, hfiles, hmd, hmeta, hsubf]
    rw [if_neg (by simp)]
    rw [if_pos hne]
  · intro env smd smRepo adjustedDeps st expPath expDirId cid mdCid mdFt
      h recRepo rid hdirs hfiles hmd hmeta hsubf hdep hroot
    simp only [Subm.validateExpDirectory, hdirs, hfiles, hmd, hmeta, hsubf,
      hdep, hroot]
    rw [if_neg (by simp)]
    rw [if_neg (by simp)]
  · intro env smd smRepo deps st p id rest e h
    simp only [Subm.validateFoldEntries, h]
  · intro fuel env smd deps smRepo expId subId sf ef smDirs smFiles mdFiles
      expDirs e hsub hexp hpart hmd hdirs hfold
    simp only [Subm.validateWorkingCopyF, hsub, hexp]
    rw [hpart]
    simp only []
    rw [hmd]
    simp only []
    rw [hdirs]
    simp only []
    rw [hfold]

/-- Witness for C5 at the hash-mismatch scenario: metadata hash `a` from
content 2 is `b`, submodule file hash from content 6 is `c`, so the step
panics with the mismatch error. -/
theorem c5_witness :
    Subm.validateExpDirectory SubmW.envW SubmW.smdW 9 [([[119]], 11)]
      SubmW.stW [119] 200 = .error (.panicHashMismatch [98] [99]) :=
  c5_recursive_hash_check.1 SubmW.envW SubmW.smdW 9 [([[119]], 11)]
    SubmW.stW [119] 200 6 2 .regular [98] [99]
    (by decide) (by decide) (by decide) (by decide) (by decide) (by decide)

/-- C10: frame property of validation.  Whenever
`validate_all_submodule_expansions` succeeds, the returned changeset is
exactly the input changeset: every success path of the per-submodule
validation returns the bonsai it was given without modification. -/
theorem c10_validation_returns_bonsai_unchanged :
    ∀ (fuel : Nat) (env : Subm.Env) (smd : Subm.SmExpData)
      (bonsai : Subm.Bonsai)
      (mover : Subm.Path → Except Subm.VErr (Option Subm.Path))
      (b' : Subm.Bonsai),
      Subm.validateAllSubmoduleExpansions fuel env smd bonsai mover =
        .ok b' →
      b' = bonsai := by
  intro fuel env smd bonsai mover b' h
  exact Subm.validateAllFold_ok_eq smd.submoduleDeps bonsai b' h

/-- Witness for C10: a successful single-submodule validation run returns
the input bonsai. -/
theorem c10_witness :
    Subm.validateAllSubmoduleExpansions 1 SubmW.envW SubmW.smdW
      SubmW.bonsaiW SubmW.moverW = .ok SubmW.bonsaiW ∧
    ∀ b2, Subm.validateAllSubmoduleExpansions 1 SubmW.envW SubmW.smdW
      SubmW.bonsaiW SubmW.moverW = .ok b2 → b2 = SubmW.bonsaiW :=
  ⟨by decide, fun b2 h => c10_validation_returns_bonsai_unchanged 1
    SubmW.envW SubmW.smdW SubmW.bonsaiW SubmW.moverW b2 h⟩
